import Mathlib

/-!
# Cryptoseek: a verification development for `src/main.cpp`

The program indexes the `.txt` files of a directory into a word → documents map,
stores the map in an XOR-obfuscated text file and answers word queries on it.

Embedding conventions

* a `std::string` is a list of bytes, a byte is a natural number below 256
  (`Str = List Nat`); string literals are written with `lit`;
* `<cctype>` predicates are those of the default "C" locale, the only locale the
  program ever runs in (it never calls `setlocale`);
* an `unordered_map` is an association list with pairwise distinct keys; the order of
  the list is the enumeration order of the map, which the C++ standard leaves open, so
  statements about maps that are inputs quantify over every such list;
* a `std::set<string>` is a strictly ascending list (byte-wise lexicographic order);
* the file system is explicit: the directory listing and the contents of the index
  file are arguments, the bytes written and the text printed are results;
* `std::string::substr` may throw `std::out_of_range`; functions that call it return
  an `Option`, `none` being the thrown exception.
-/

namespace Cryptoseek

/-- A `std::string`: a sequence of bytes. -/
abbrev Str := List Nat

/-- The bytes of an ASCII string literal. -/
def lit (s : String) : Str := s.toList.map Char.toNat

/-! ## Constants (lines 15-17) -/

/-- The key `XOR_KEY = 'K'`. -/
def XOR_KEY : Nat := 75

/-! ## `<cctype>` in the "C" locale -/

/-- Function `ispunct`: the printable characters that are neither alphanumeric nor the space. -/
def ispunct (c : Nat) : Bool :=
  (33 ≤ c && c ≤ 47) || (58 ≤ c && c ≤ 64) || (91 ≤ c && c ≤ 96) || (123 ≤ c && c ≤ 126)

/-- Function `isspace`: space, `\t`, `\n`, `\v`, `\f`, `\r`. -/
def isspace (c : Nat) : Bool :=
  c == 32 || (9 ≤ c && c ≤ 13)

/-- Function `tolower`: `A`-`Z` go to `a`-`z`, every other value is returned unchanged. -/
def tolower (c : Nat) : Nat :=
  if 65 ≤ c ∧ c ≤ 90 then c + 32 else c

/-! ## Normalizer (lines 19-39) -/

/-- Function `toLower` (lines 19-24): `std::transform` with `tolower` over a copy. -/
def toLower (str : Str) : Str := str.map tolower

/-- Function `cleanToken` (lines 27-39): erase-remove of the punctuation, then `toLower`. -/
def cleanToken (word : Str) : Str :=
  toLower (word.filter (fun c => !ispunct c))

/-! ## Byte transform (lines 42-49) -/

/-- Function `xorEncryptDecrypt` (lines 42-49): every byte of a copy is xor-ed with the key. -/
def xorEncryptDecrypt (input : Str) : Str := input.map (fun c => c ^^^ XOR_KEY)

/-! ## Containers -/

/-- An `unordered_map<string, V>`: entries with pairwise distinct keys, listed in the
enumeration order of the map. -/
abbrev Table (α : Type) := List (Str × α)

/-- The index type `unordered_map<string, vector<string>>`. -/
abbrev Index := Table (List Str)

/-- The terms of a map, in enumeration order. -/
def keys {α : Type} (m : Table α) : List Str := m.map Prod.fst

/-- Member `m.find(k)`: the value stored under `k`, `none` for `m.end()`. -/
def find {α : Type} : Table α → Str → Option α
  | [], _ => none
  | (k', v) :: rest, k => if k' = k then some v else find rest k

/-- Subscript `m[k]` followed by a modification `f` of the referenced value: a missing key is
first inserted with the default-constructed value `dflt`. -/
def atKey {α : Type} (k : Str) (dflt : α) (f : α → α) : Table α → Table α
  | [] => [(k, f dflt)]
  | (k', v) :: rest =>
    if k' = k then (k', f v) :: rest else (k', v) :: atKey k dflt f rest

/-- Assignment `m[k] = v`. -/
def assign {α : Type} (m : Table α) (k : Str) (v : α) (dflt : α) : Table α :=
  atKey k dflt (fun _ => v) m

/-- Order `std::less<string>`: byte-wise lexicographic comparison. -/
def strLt : Str → Str → Bool
  | [], [] => false
  | [], _ :: _ => true
  | _ :: _, [] => false
  | a :: as, b :: bs => if a < b then true else if b < a then false else strLt as bs

/-- Member `std::set<string>::insert` on the ascending list of the elements. -/
def setInsert (x : Str) : List Str → List Str
  | [] => [x]
  | y :: ys =>
    if strLt x y then x :: y :: ys
    else if strLt y x then y :: setInsert x ys
    else y :: ys

/-! ## Streams -/

/-- The words that repeated `file >> word` extracts from the rest of a stream; `cur`
holds the characters of the word being read. Leading whitespace is skipped, a word
ends at the next whitespace character or at the end of the stream, and the
extraction fails (ending the loop) when no character could be read. -/
def extractWords : Str → Str → List Str
  | [], cur => if cur = [] then [] else [cur]
  | c :: cs, cur =>
    if isspace c then
      if cur = [] then extractWords cs [] else cur :: extractWords cs []
    else extractWords cs (cur ++ [c])

/-- All words of a text, in order. -/
def words (text : Str) : List Str := extractWords text []

/-- The lines that repeated `getline(stream, line, delim)` extracts from the rest of
a stream; `cur` holds the characters of the line being read. A line ends at the
delimiter (which is consumed) or at the end of the stream, and the extraction fails
(ending the loop) when the stream is at its end before any character was read. -/
def extractLines (delim : Nat) : Str → Str → List Str
  | [], cur => if cur = [] then [] else [cur]
  | c :: cs, cur =>
    if c = delim then cur :: extractLines delim cs []
    else extractLines delim cs (cur ++ [c])

/-- All lines of a text, in order. -/
def getlines (delim : Nat) (text : Str) : List Str := extractLines delim text []

/-! ## `std::string` members -/

/-- Member `s.find(c)`: the first position of the character `c`, `none` for `npos`. -/
def strFind : Str → Nat → Option Nat
  | [], _ => none
  | x :: xs, c => if x = c then some 0 else (strFind xs c).map (· + 1)

/-- Member `s.find(q)`: the first position at which `q` occurs in `s`, `none` for `npos`. -/
def strFindStr : Str → Str → Option Nat
  | [], q => if q = [] then some 0 else none
  | c :: cs, q =>
    if q.isPrefixOf (c :: cs) then some 0 else (strFindStr cs q).map (· + 1)

/-- Member `s.substr(pos, n)`, with `n = none` for the default `npos`; `none` is the
`std::out_of_range` thrown when `pos > s.size()`. -/
def substr (s : Str) (pos : Nat) (n : Option Nat) : Option Str :=
  if s.length < pos then none
  else match n with
    | none => some (s.drop pos)
    | some n => some ((s.drop pos).take n)

/-! ## Index builder (lines 52-83) -/

/-- The suffix of `s` that starts at its rightmost period, if it has one. -/
def lastPeriod : Str → Option Str
  | [] => none
  | c :: cs =>
    match lastPeriod cs with
    | some e => some e
    | none => if c = 46 then some (c :: cs) else none

/-- Member `path::extension()` of a file name: the suffix from the rightmost period on; a
period that is the first character of the name does not start an extension, and the
names `.` and `..` have none. -/
def extension (name : Str) : Str :=
  if name = [46] ∨ name = [46, 46] then []
  else match name with
    | [] => []
    | _ :: rest => (lastPeriod rest).getD []

/-- The loop body of lines 65-73 for one extracted word of the file `name`. -/
def addWord (name : Str) (tempIndex : Table (List Str)) (word : Str) : Table (List Str) :=
  let cleaned := cleanToken word
  if cleaned ≠ [] then atKey cleaned [] (setInsert name) tempIndex else tempIndex

/-- The loop body of lines 59-74 for one directory entry: its file name and the bytes
read from it (none when the file cannot be opened). -/
def addEntry (tempIndex : Table (List Str)) (entry : Str × Str) : Table (List Str) :=
  if extension entry.1 = lit ".txt" then
    (words entry.2).foldl (addWord entry.1) tempIndex
  else tempIndex

/-- Function `buildIndex` (lines 52-83) over the entries of `DOCS_DIR`, in the order in which
`directory_iterator` yields them. -/
def buildIndex (entries : List (Str × Str)) : Index :=
  let tempIndex := entries.foldl addEntry []
  tempIndex.foldl (fun index wf => assign index wf.1 wf.2 []) []

/-! ## Codec (lines 86-160) -/

/-- The text of one entry built in the `ostringstream` (lines 93-96). -/
def entryText (word : Str) (files : List Str) : Str :=
  files.foldl (fun entry file => entry ++ file ++ [44]) (word ++ [58])

/-- Function `saveEncryptedIndex` (lines 86-105): the bytes written to `ENCRYPTED_INDEX`. -/
def saveEncryptedIndex (index : Index) : Str :=
  index.foldl (fun out wf => out ++ xorEncryptDecrypt (entryText wf.1 wf.2 ++ [10])) []

/-- The text `saveEncryptedIndex` prints on `cout` (line 104). -/
def saveMessage : Str := lit "Index built and encrypted to 'encrypted.idx'\n"

/-- The loop body of lines 131-156 for one line of the decrypted content. -/
def parseLine (index : Index) (line : Str) : Option Index :=
  match strFind line 58 with
  | none => some index
  | some colon_pos => do
    let word0 ← substr line 0 (some colon_pos)
    let word := word0.filter (fun c => !isspace c)
    let files_str0 ← substr line (colon_pos + 1) none
    let files_str :=
      if files_str0 ≠ [] ∧ files_str0.getLast? = some 44 then files_str0.dropLast
      else files_str0
    let files := (getlines 44 files_str).filter (fun file => file ≠ [])
    if word ≠ [] ∧ files ≠ [] then some (assign index word files []) else some index

/-- The parsing loop of lines 126-159 over the decrypted content. -/
def parseIndex (content : Str) : Option Index :=
  (getlines 10 content).foldlM parseLine []

/-- Function `loadDecryptedIndex` (lines 108-160); `file` is the content of `ENCRYPTED_INDEX`,
`none` when it cannot be opened. -/
def loadDecryptedIndex (file : Option Str) : Option Index :=
  match file with
  | none => some []
  | some encrypted_content => parseIndex (xorEncryptDecrypt encrypted_content)

/-- The text `loadDecryptedIndex` prints on `cerr` (line 115). -/
def loadError (file : Option Str) : Str :=
  match file with
  | none => lit "ERROR: Could not open index file\n"
  | some _ => []

/-! ## Query engine (lines 163-195) -/

/-- The branch `searchWord` takes, with the values it prints. -/
inductive Lookup where
  | Found (q : Str) (files : List Str)
  | NotFound (q : Str) (suggestions : List Str)
  deriving DecidableEq, Repr

/-- Lines 168-194 of `searchWord` on a loaded index and the cleaned query. -/
def searchIndex (index : Index) (q : Str) : Lookup :=
  match find index q with
  | some files => Lookup.Found q files
  | none =>
    Lookup.NotFound q ((keys index).filter (fun word => (strFindStr word q).isSome))

/-- The lines of a bulleted list (lines 173-174 and 191-192). -/
def bullets (items : List Str) : Str :=
  items.foldl (fun out item => out ++ lit " - " ++ item ++ [10]) []

/-- The text `searchWord` prints on `cout`. -/
def render : Lookup → Str
  | Lookup.Found q files => lit "Found '" ++ q ++ lit "' in:\n" ++ bullets files
  | Lookup.NotFound q suggestions =>
    lit "No results for '" ++ q ++ lit "'\n" ++
      (if suggestions ≠ [] then lit "Did you mean:\n" ++ bullets suggestions else [])

/-- Function `searchWord` (lines 163-195) on the content of the index file. -/
def searchWord (file : Option Str) (query : Str) : Option Lookup :=
  let q := cleanToken query
  (loadDecryptedIndex file).map (fun index => searchIndex index q)

/-! ## Command line (lines 197-226) -/

/-- What the program reads: the entries of `DOCS_DIR` (file name, file content) and
the content of `ENCRYPTED_INDEX` if that file can be opened. -/
structure Env where
  docs : List (Str × Str)
  indexFile : Option Str

/-- What a run leaves behind: the value returned by `main`, the text on `cout` and on
`cerr`, and the content of `ENCRYPTED_INDEX` afterwards. -/
structure Run where
  status : Int
  cout : Str
  cerr : Str
  indexFile : Option Str
  deriving DecidableEq, Repr

/-- The usage text of lines 201-203. -/
def usage : Str := lit "Usage:\n  cryptoseek index\n  cryptoseek search <word> \n"

/-- Function `main` (lines 197-226); `argv` holds the `argc` arguments, the program name first.
The result is `none` when an exception escapes. -/
def main (env : Env) (argv : List Str) : Option Run :=
  if argv.length < 2 then
    some ⟨1, [], usage, env.indexFile⟩
  else
    let cmd := argv.getD 1 []
    if cmd = lit "index" then
      let index := buildIndex env.docs
      some ⟨0, saveMessage, [], some (saveEncryptedIndex index)⟩
    else if cmd = lit "search" ∧ argv.length = 3 then
      (searchWord env.indexFile (argv.getD 2 [])).map
        (fun r => ⟨0, render r, loadError env.indexFile, env.indexFile⟩)
    else
      some ⟨0, [], lit "Invalid command or arguments.\n", env.indexFile⟩

/-! ## The layout the specification words (section 4.3) -/

/-- The record of one (term, posting list) pair in the words of the specification:
the term, `:`, every identifier followed by `,`, then `\n`. -/
def specRecord (term : Str) (ids : List Str) : Str :=
  term ++ [58] ++ (ids.map (fun identifier => identifier ++ [44])).flatten ++ [10]

/-- The plaintext of an index: its records, concatenated without further framing. -/
def specPlaintext (index : Index) : Str :=
  (index.map (fun p => specRecord p.1 p.2)).flatten

/-- The encoding the specification requires: the transform applied in one pass to the
whole plaintext. -/
def specEncode (index : Index) : Str := xorEncryptDecrypt (specPlaintext index)

/-- A plaintext made of complete lines: every line is followed by `\n`. -/
def joinLines (lines : List Str) : Str :=
  (lines.map (fun line => line ++ [10])).flatten

/-! ## Vocabulary of the statements -/

/-- The index `m` maps the term `t` to a posting list that contains the identifier `d`. -/
def posted (m : Index) (t d : Str) : Prop :=
  ∃ files, find m t = some files ∧ d ∈ files

/-- Two indexes have the same set of terms and, for each term, the same set of
document identifiers. -/
def sameSets (i j : Index) : Prop :=
  (∀ t, t ∈ keys j ↔ t ∈ keys i) ∧ (∀ t d, posted j t d ↔ posted i t d)

/-- An entry the text layout can carry: the term is non-empty and has neither `:` nor
a whitespace character; the posting list is non-empty and each identifier is non-empty
and has neither `,` nor `\n`. -/
def cleanEntry (p : Str × List Str) : Prop :=
  p.1 ≠ [] ∧ 58 ∉ p.1 ∧ (∀ c ∈ p.1, isspace c = false) ∧
    p.2 ≠ [] ∧ ∀ f ∈ p.2, f ≠ [] ∧ 44 ∉ f ∧ 10 ∉ f

instance (p : Str × List Str) : Decidable (cleanEntry p) := by
  unfold cleanEntry
  infer_instance

/-- The corpus the builder works on: the directory entries whose name has the
extension `.txt`, as (identifier, text) pairs. -/
def corpus (entries : List (Str × Str)) : List (Str × Str) :=
  entries.filter (fun e => decide (extension e.1 = lit ".txt"))

/-- No character of `s` is a whitespace character. -/
def spaceFree (s : Str) : Prop := ∀ c ∈ s, isspace c = false

/-- Token: `tok` is a whitespace-delimited token of `text`: a non-empty run of non-whitespace
characters that is maximal, that is, it starts at the start of the text or right after
a whitespace character and ends at the end of the text or right before one. -/
def isToken (tok text : Str) : Prop :=
  tok ≠ [] ∧ spaceFree tok ∧
    ∃ pre post, text = pre ++ tok ++ post ∧
      (∀ c, pre.getLast? = some c → isspace c = true) ∧
      (∀ c, post.head? = some c → isspace c = true)

/-! ## The normalizer the specification words (section 4.1) -/

/-- The ASCII punctuation characters, by code: `!` to `/`, `:` to `@`, `[` to the
backquote, and the opening brace to `~`. -/
def asciiPunctuation : List Nat :=
  [33, 34, 35, 36, 37, 38, 39, 40, 41, 42, 43, 44, 45, 46, 47,
   58, 59, 60, 61, 62, 63, 64,
   91, 92, 93, 94, 95, 96,
   123, 124, 125, 126]

/-- An ASCII uppercase letter, `A` to `Z`. -/
def isAsciiUpper (c : Nat) : Bool := 65 ≤ c && c ≤ 90

/-- The normalizer in the words of the specification: punctuation characters are
deleted, the remaining uppercase letters are replaced by the lowercase letter of the
same rank, every other character is kept, in order. -/
def specNormalize : Str → Str
  | [] => []
  | c :: cs =>
    if c ∈ asciiPunctuation then specNormalize cs
    else (if isAsciiUpper c then c - 65 + 97 else c) :: specNormalize cs

/-! ## The per-line decoding the specification words (section 4.3) -/

/-- The fields of `s` split on the separator `sep`: the pieces between consecutive
separators, the piece before the first and the piece after the last one, empty pieces
included. -/
def fields (sep : Nat) : Str → List Str
  | [] => [[]]
  | c :: cs =>
    if c = sep then [] :: fields sep cs
    else match fields sep cs with
      | [] => [[c]]
      | f :: fs => (c :: f) :: fs

/-- The term of a line, given the text before its first `:`: that text with every
whitespace character removed. -/
def lineTerm (pre : Str) : Str := pre.filter (fun c => !isspace c)

/-- The identifiers of a line, given the text after its first `:`: the non-empty
fields of that text split on `,`, in order. -/
def lineFiles (post : Str) : List Str := (fields 44 post).filter (fun f => f ≠ [])

/-- The text before and the text after the first occurrence of `c` in `s`, if `c`
occurs. -/
def splitFirst (c : Nat) : Str → Option (Str × Str)
  | [] => none
  | x :: xs =>
    if x = c then some ([], xs)
    else (splitFirst c xs).map (fun p => (x :: p.1, p.2))

/-- The valid record a line holds, if any: the line has a `:`, and both its term and
its list of identifiers are non-empty. -/
def lineRecord (line : Str) : Option (Str × List Str) :=
  match splitFirst 58 line with
  | none => none
  | some (pre, post) =>
    if lineTerm pre ≠ [] ∧ lineFiles post ≠ [] then some (lineTerm pre, lineFiles post)
    else none

/-- Strictly ascending in the byte-wise lexicographic order of strings. -/
def ascending (files : List Str) : Prop :=
  files.Sorted (fun a b => List.Lex (· < ·) a b)

/-- Every posting list of the index is non-empty and strictly ascending for
`std::less<string>`, the order of the `std::set` it was copied from. -/
def goodSets (m : Index) : Prop :=
  ∀ p ∈ m, p.2 ≠ [] ∧ p.2.Pairwise (fun a b => strLt a b = true)

/-! ## Theorems -/

theorem xor_key_cancel (c : Nat) : (c ^^^ XOR_KEY) ^^^ XOR_KEY = c := by
  rw [Nat.xor_assoc, Nat.xor_self, Nat.xor_zero]

theorem xor_key_lt (c : Nat) (h : c < 256) : c ^^^ XOR_KEY < 256 :=
  Nat.xor_lt_two_pow (n := 8) h (by decide)

theorem xorEncryptDecrypt_involutive (b : Str) :
    xorEncryptDecrypt (xorEncryptDecrypt b) = b := by
  induction b with
  | nil => rfl
  | cons c cs ih =>
    simp only [xorEncryptDecrypt, List.map_cons, List.map_map] at ih ⊢
    rw [xor_key_cancel, ih]

/-- C2. Transform involution: applying `xorEncryptDecrypt` twice gives back the input,
for every byte sequence, the empty one included. -/
theorem C2_transform_involution :
    (∀ b : Str, xorEncryptDecrypt (xorEncryptDecrypt b) = b) ∧
    xorEncryptDecrypt (xorEncryptDecrypt []) = [] :=
  ⟨xorEncryptDecrypt_involutive, rfl⟩

theorem ispunct_tolower (c : Nat) : ispunct (tolower c) = ispunct c := by
  unfold tolower
  split
  · next h =>
    have h1 : ispunct c = false := by
      simp only [ispunct, Bool.or_eq_false_iff, Bool.and_eq_false_iff, decide_eq_false_iff_not]
      omega
    have h2 : ispunct (c + 32) = false := by
      simp only [ispunct, Bool.or_eq_false_iff, Bool.and_eq_false_iff, decide_eq_false_iff_not]
      omega
    rw [h1, h2]
  · rfl

theorem tolower_tolower (c : Nat) : tolower (tolower c) = tolower c := by
  unfold tolower
  split_ifs <;> omega

theorem cleanToken_idempotent (s : Str) : cleanToken (cleanToken s) = cleanToken s := by
  induction s with
  | nil => rfl
  | cons c cs ih =>
    simp only [cleanToken, toLower] at ih ⊢
    by_cases hc : ispunct c = true
    · simpa [List.filter_cons, hc] using ih
    · have hc2 : ispunct (tolower c) = false := by rw [ispunct_tolower]; simpa using hc
      simp only [Bool.not_eq_true] at hc
      simp only [List.filter_cons, hc, Bool.not_false, if_true, List.map_cons, hc2,
        tolower_tolower]
      rw [ih]

/-- C3. Normalization idempotence: `cleanToken (cleanToken s) = cleanToken s` for every
string `s`. -/
theorem C3_normalization_idempotent (s : Str) : cleanToken (cleanToken s) = cleanToken s :=
  cleanToken_idempotent s

/-! ### Maps -/

theorem find_eq_none_iff {α : Type} (m : Table α) (k : Str) :
    find m k = none ↔ k ∉ keys m := by
  induction m with
  | nil => simp [find, keys]
  | cons p rest ih =>
    obtain ⟨k', v⟩ := p
    by_cases h : k' = k
    · simp [find, keys, h]
    · have h' : ¬ k = k' := fun e => h e.symm
      simpa [find, keys, h, h'] using ih

theorem mem_keys_of_mem {α : Type} {m : Table α} {k : Str} {v : α} (h : (k, v) ∈ m) :
    k ∈ keys m :=
  List.mem_map.mpr ⟨(k, v), h, rfl⟩

theorem find_eq_some_iff {α : Type} (m : Table α) (hm : (keys m).Nodup) (k : Str) (v : α) :
    find m k = some v ↔ (k, v) ∈ m := by
  induction m with
  | nil => simp [find]
  | cons p rest ih =>
    obtain ⟨k', v'⟩ := p
    have hnd : k' ∉ keys rest ∧ (keys rest).Nodup := by
      simpa [keys] using hm
    by_cases h : k' = k
    · subst h
      have hno : (k', v) ∉ rest := fun hmem => hnd.1 (mem_keys_of_mem hmem)
      simp only [find, if_true, Option.some.injEq, List.mem_cons, Prod.mk.injEq, true_and]
      constructor
      · intro e; exact Or.inl e.symm
      · rintro (e | e)
        · exact e.symm
        · exact absurd e hno
    · have h' : ¬ k = k' := fun e => h e.symm
      simp only [find, h, if_false, List.mem_cons, Prod.mk.injEq, h', false_and, false_or]
      exact ih hnd.2

theorem atKey_of_not_mem {α : Type} (k : Str) (dflt : α) (f : α → α) (m : Table α)
    (h : k ∉ keys m) : atKey k dflt f m = m ++ [(k, f dflt)] := by
  induction m with
  | nil => rfl
  | cons p rest ih =>
    obtain ⟨k', v⟩ := p
    have h1 : ¬ k' = k := fun e => h (by simp [keys, e])
    have h2 : k ∉ keys rest := fun e => h (by
      simp only [keys, List.map_cons, List.mem_cons]; exact Or.inr e)
    simp [atKey, h1, ih h2]

theorem keys_atKey_of_mem {α : Type} (k : Str) (dflt : α) (f : α → α) (m : Table α)
    (h : k ∈ keys m) : keys (atKey k dflt f m) = keys m := by
  induction m with
  | nil => simp [keys] at h
  | cons p rest ih =>
    obtain ⟨k', v⟩ := p
    by_cases h1 : k' = k
    · simp [atKey, h1, keys]
    · have h2 : k ∈ keys rest := by
        simp only [keys, List.map_cons, List.mem_cons] at h
        rcases h with e | e
        · exact absurd e.symm h1
        · exact e
      have := ih h2
      simp only [keys] at this
      simp [atKey, h1, keys, this]

theorem nodup_keys_atKey {α : Type} (k : Str) (dflt : α) (f : α → α) (m : Table α)
    (hm : (keys m).Nodup) : (keys (atKey k dflt f m)).Nodup := by
  by_cases h : k ∈ keys m
  · rw [keys_atKey_of_mem k dflt f m h]; exact hm
  · rw [atKey_of_not_mem k dflt f m h]
    simp only [keys, List.map_append, List.map_cons, List.map_nil]
    exact List.Nodup.append hm (List.nodup_singleton k)
      (List.disjoint_singleton.mpr h)

theorem find_atKey {α : Type} (k : Str) (dflt : α) (f : α → α) (m : Table α) (k' : Str) :
    find (atKey k dflt f m) k' =
      if k' = k then some (f ((find m k).getD dflt)) else find m k' := by
  induction m with
  | nil =>
    by_cases h : k' = k
    · simp [atKey, find, h]
    · have h' : ¬ k = k' := fun e => h e.symm
      simp [atKey, find, h, h']
  | cons p rest ih =>
    obtain ⟨k0, v⟩ := p
    by_cases h0 : k0 = k
    · subst h0
      by_cases h : k' = k0
      · simp [atKey, find, h]
      · have h' : ¬ k0 = k' := fun e => h e.symm
        simp [atKey, find, h, h']
    · by_cases h : k' = k
      · subst h
        simp [atKey, find, h0, ih]
      · by_cases h1 : k0 = k'
        · simp [atKey, find, h0, h, h1]
        · simp [atKey, find, h0, h, h1, ih]

/-- Assigning the entries of a table with distinct keys one after the other rebuilds
that table, entry by entry. -/
theorem foldl_assign_eq {α : Type} (dflt : α) (m acc : Table α)
    (h : (keys (acc ++ m)).Nodup) :
    m.foldl (fun index wf => assign index wf.1 wf.2 dflt) acc = acc ++ m := by
  induction m generalizing acc with
  | nil => simp
  | cons p rest ih =>
    obtain ⟨k, v⟩ := p
    have hk : k ∉ keys acc := by
      simp only [keys, List.map_append, List.map_cons] at h
      have := (List.nodup_append.mp h).2.2
      intro hmem
      exact this hmem (List.mem_cons_self _ _)
    have h' : (keys ((acc ++ [(k, v)]) ++ rest)).Nodup := by
      simpa [List.append_assoc] using h
    have hstep : assign acc k v dflt = acc ++ [(k, v)] := by
      unfold assign
      exact atKey_of_not_mem k dflt _ acc hk
    rw [List.foldl_cons, hstep, ih (acc ++ [(k, v)]) h']
    simp [List.append_assoc]

/-! ### Serialization -/

theorem xorEncryptDecrypt_append (a b : Str) :
    xorEncryptDecrypt (a ++ b) = xorEncryptDecrypt a ++ xorEncryptDecrypt b := by
  simp [xorEncryptDecrypt]

theorem foldl_entry (files : List Str) (acc : Str) :
    files.foldl (fun entry file => entry ++ file ++ [44]) acc
      = acc ++ (files.map (fun identifier => identifier ++ [44])).flatten := by
  induction files generalizing acc with
  | nil => simp
  | cons f fs ih =>
    rw [List.foldl_cons, ih]
    simp [List.append_assoc]

theorem entryText_eq (word : Str) (files : List Str) :
    entryText word files ++ [10] = specRecord word files := by
  unfold entryText specRecord
  rw [foldl_entry]

theorem foldl_save (index : Index) (acc : Str) :
    index.foldl (fun out wf => out ++ xorEncryptDecrypt (entryText wf.1 wf.2 ++ [10])) acc
      = acc ++ xorEncryptDecrypt (specPlaintext index) := by
  induction index generalizing acc with
  | nil => simp [specPlaintext, xorEncryptDecrypt]
  | cons p rest ih =>
    rw [List.foldl_cons, ih]
    simp only [specPlaintext, List.map_cons, List.flatten_cons,
      xorEncryptDecrypt_append, entryText_eq, List.append_assoc]

theorem saveEncryptedIndex_eq (index : Index) :
    saveEncryptedIndex index = xorEncryptDecrypt (specPlaintext index) := by
  simp [saveEncryptedIndex, foldl_save]

/-- C10. Serialization layout: the bytes `saveEncryptedIndex` writes, one transformed
record after the other, are the transform applied in one pass to the concatenation of
the plaintext records `term ++ ":" ++ (each identifier ++ ",") ++ "\n"`, with no other
framing. -/
theorem C10_serialization_layout (index : Index) :
    saveEncryptedIndex index = specEncode index :=
  saveEncryptedIndex_eq index

/-! ### Line extraction -/

theorem extractLines_no_delim (d : Nat) (s cur : Str) (h : d ∉ s) :
    extractLines d s cur = if cur ++ s = [] then [] else [cur ++ s] := by
  induction s generalizing cur with
  | nil => simp [extractLines]
  | cons c cs ih =>
    have hc : ¬ c = d := fun e => h (by simp [e])
    have hcs : d ∉ cs := fun e => h (List.mem_cons_of_mem _ e)
    simp [extractLines, hc, ih _ hcs]

theorem extractLines_append_delim (d : Nat) (s rest cur : Str) (h : d ∉ s) :
    extractLines d (s ++ d :: rest) cur = (cur ++ s) :: extractLines d rest [] := by
  induction s generalizing cur with
  | nil => simp [extractLines]
  | cons c cs ih =>
    have hc : ¬ c = d := fun e => h (by simp [e])
    have hcs : d ∉ cs := fun e => h (List.mem_cons_of_mem _ e)
    simp [extractLines, hc, ih _ hcs]

theorem extractLines_split (d : Nat) (p rest cur : Str) :
    extractLines d (p ++ d :: rest) cur
      = extractLines d (p ++ [d]) cur ++ extractLines d rest [] := by
  induction p generalizing cur with
  | nil => simp [extractLines]
  | cons c cs ih =>
    by_cases hc : c = d
    · simp [extractLines, hc, ih]
    · simp [extractLines, hc, ih]

theorem getlines_joinLines_append (ls : List Str) (rest : Str) :
    getlines 10 (joinLines ls ++ rest) = getlines 10 (joinLines ls) ++ getlines 10 rest := by
  induction ls with
  | nil => simp [joinLines, getlines, extractLines]
  | cons l ls ih =>
    have e1 : joinLines (l :: ls) ++ rest = l ++ 10 :: (joinLines ls ++ rest) := by
      simp [joinLines]
    have e2 : joinLines (l :: ls) = l ++ 10 :: joinLines ls := by
      simp [joinLines]
    unfold getlines at ih ⊢
    rw [e1, e2, extractLines_split, extractLines_split 10 l (joinLines ls), ih,
      List.append_assoc]

theorem getlines_terminated (d : Nat) (ls : List Str) (rest : Str)
    (h : ∀ l ∈ ls, d ∉ l) :
    getlines d ((ls.map (fun l => l ++ [d])).flatten ++ rest) = ls ++ getlines d rest := by
  induction ls with
  | nil => simp
  | cons l ls ih =>
    have hl : d ∉ l := h l (List.mem_cons_self _ _)
    have hls : ∀ l' ∈ ls, d ∉ l' := fun l' hl' => h l' (List.mem_cons_of_mem _ hl')
    have e : ((l :: ls).map (fun l => l ++ [d])).flatten ++ rest
        = l ++ d :: ((ls.map (fun l => l ++ [d])).flatten ++ rest) := by simp
    unfold getlines at ih ⊢
    rw [e, extractLines_append_delim d l _ [] hl, ih hls]
    simp

/-! ### Parsing one line -/

theorem strFind_eq_none (s : Str) (c : Nat) (h : c ∉ s) : strFind s c = none := by
  induction s with
  | nil => rfl
  | cons x xs ih =>
    have hx : ¬ x = c := fun e => h (by simp [e])
    have hxs : c ∉ xs := fun e => h (List.mem_cons_of_mem _ e)
    simp [strFind, hx, ih hxs]

theorem strFind_append (w rest : Str) (c : Nat) (h : c ∉ w) :
    strFind (w ++ c :: rest) c = some w.length := by
  induction w with
  | nil => simp [strFind]
  | cons x xs ih =>
    have hx : ¬ x = c := fun e => h (by simp [e])
    have hxs : c ∉ xs := fun e => h (List.mem_cons_of_mem _ e)
    simp [strFind, hx, ih hxs]

theorem strFind_lt (s : Str) (c pos : Nat) (h : strFind s c = some pos) : pos < s.length := by
  induction s generalizing pos with
  | nil => simp [strFind] at h
  | cons x xs ih =>
    by_cases hx : x = c
    · simp [strFind, hx] at h
      subst h
      simp
    · simp only [strFind, hx, if_false, Option.map_eq_some'] at h
      obtain ⟨q, hq, rfl⟩ := h
      have := ih q hq
      simp
      omega

/-- Parsing a line never throws: the position after the colon is within the line. -/
theorem parseLine_total (index : Index) (line : Str) :
    ∃ index', parseLine index line = some index' := by
  unfold parseLine
  cases h : strFind line 58 with
  | none => exact ⟨index, rfl⟩
  | some pos =>
    have hlt := strFind_lt line 58 pos h
    have h1 : ¬ line.length < 0 := by omega
    have h2 : ¬ line.length < pos + 1 := by omega
    simp only [substr, h1, h2, if_false, Option.bind_eq_bind, Option.some_bind]
    split_ifs <;> exact ⟨_, rfl⟩

theorem foldlM_parseLine_total (lines : List Str) (index : Index) :
    ∃ index', lines.foldlM parseLine index = some index' := by
  induction lines generalizing index with
  | nil => exact ⟨index, rfl⟩
  | cons l ls ih =>
    obtain ⟨i1, h1⟩ := parseLine_total index l
    obtain ⟨i2, h2⟩ := ih i1
    exact ⟨i2, by simp [List.foldlM_cons, h1, h2]⟩

theorem parseIndex_total (content : Str) : ∃ index, parseIndex content = some index :=
  foldlM_parseLine_total _ _

theorem loadDecryptedIndex_total (file : Option Str) :
    ∃ index, loadDecryptedIndex file = some index := by
  cases file with
  | none => exact ⟨[], rfl⟩
  | some enc => exact parseIndex_total _

theorem parseLine_no_colon (index : Index) (line : Str) (h : 58 ∉ line) :
    parseLine index line = some index := by
  simp [parseLine, strFind_eq_none line 58 h]

theorem entryText_append (word : Str) (files : List Str) :
    entryText word files
      = word ++ 58 :: (files.map (fun identifier => identifier ++ [44])).flatten := by
  unfold entryText
  rw [foldl_entry]
  simp

theorem getlines_comma_joined (files : List Str) (h : ∀ f ∈ files, f ≠ [] ∧ 44 ∉ f)
    (hne : files ≠ []) :
    getlines 44 ((files.map (fun identifier => identifier ++ [44])).flatten).dropLast
      = files := by
  obtain ⟨init, last, rfl⟩ : ∃ init last, files = init ++ [last] := by
    rcases List.eq_nil_or_concat files with e | ⟨L, b, e⟩
    · exact absurd e hne
    · exact ⟨L, b, by simpa using e⟩
  have hlast := h last (by simp)
  have hinit : ∀ f ∈ init, 44 ∉ f := fun f hf => (h f (by simp [hf])).2
  have e : ((init ++ [last]).map (fun identifier => identifier ++ [44])).flatten
      = ((init.map (fun identifier => identifier ++ [44])).flatten ++ last) ++ [44] := by
    simp
  rw [e, List.dropLast_concat, getlines_terminated 44 init last hinit]
  unfold getlines
  rw [extractLines_no_delim 44 last [] hlast.2]
  simp [hlast.1]

theorem parseLine_record (index : Index) (word : Str) (files : List Str)
    (hw : word ≠ []) (hc : 58 ∉ word) (hs : ∀ c ∈ word, isspace c = false)
    (hne : files ≠ []) (hf : ∀ f ∈ files, f ≠ [] ∧ 44 ∉ f) :
    parseLine index (entryText word files) = some (assign index word files []) := by
  obtain ⟨init, last, hfiles⟩ : ∃ init last, files = init ++ [last] := by
    rcases List.eq_nil_or_concat files with e | ⟨L, b, e⟩
    · exact absurd e hne
    · exact ⟨L, b, by simpa using e⟩
  have hjoined : ∃ body, (files.map (fun identifier => identifier ++ [44])).flatten
      = body ++ [44] := by
    rw [hfiles]
    exact ⟨(init.map (fun identifier => identifier ++ [44])).flatten ++ last, by simp⟩
  obtain ⟨body, hbody⟩ := hjoined
  have hsplit := getlines_comma_joined files hf hne
  have hfilterw : word.filter (fun c => !isspace c) = word :=
    List.filter_eq_self.mpr (fun c hcw => by simp [hs c hcw])
  have hfilterf : files.filter (fun file => decide (file ≠ [])) = files :=
    List.filter_eq_self.mpr (fun f hfm => by simpa using (hf f hfm).1)
  have h1 : ¬ (word ++ 58 :: (body ++ [44])).length < word.length + 1 := by
    simp
  unfold parseLine
  rw [entryText_append, strFind_append word _ 58 hc]
  rw [hbody] at hsplit ⊢
  simp only [substr, Nat.not_lt_zero, if_false, h1, Option.bind_eq_bind, Option.some_bind,
    List.drop_zero, List.take_left' rfl, hfilterw]
  have hdrop : List.drop (word.length + 1) (word ++ 58 :: (body ++ [44])) = body ++ [44] := by
    have : word ++ 58 :: (body ++ [44]) = (word ++ [58]) ++ (body ++ [44]) := by simp
    rw [this]
    exact List.drop_left' (by simp)
  rw [hdrop]
  have hcond : body ++ [44] ≠ [] ∧ (body ++ [44]).getLast? = some 44 := by
    constructor
    · simp
    · exact List.getLast?_concat body
  rw [if_pos hcond, hsplit, hfilterf, if_pos ⟨hw, hne⟩]

theorem not_newline_of_not_space (word : Str) (hs : ∀ c ∈ word, isspace c = false) :
    10 ∉ word := by
  intro h
  have := hs 10 h
  simp [isspace] at this

theorem newline_not_mem_entryText (p : Str × List Str) (h : cleanEntry p) :
    10 ∉ entryText p.1 p.2 := by
  obtain ⟨_, _, hs, _, hf⟩ := h
  rw [entryText_append]
  intro hmem
  rcases List.mem_append.mp hmem with h1 | h1
  · exact not_newline_of_not_space p.1 hs h1
  · rcases List.mem_cons.mp h1 with h2 | h2
    · omega
    · obtain ⟨l, hl, hml⟩ := List.mem_flatten.mp h2
      obtain ⟨f, hfm, rfl⟩ := List.mem_map.mp hl
      rcases List.mem_append.mp hml with h3 | h3
      · exact (hf f hfm).2.2 h3
      · simp at h3

theorem getlines_specPlaintext (index : Index) (h : ∀ p ∈ index, cleanEntry p) :
    getlines 10 (specPlaintext index) = index.map (fun p => entryText p.1 p.2) := by
  have e : specPlaintext index
      = ((index.map (fun p => entryText p.1 p.2)).map (fun l => l ++ [10])).flatten ++ [] := by
    simp only [specPlaintext, List.map_map, List.append_nil]
    congr 1
    apply List.map_congr_left
    intro p _
    exact (entryText_eq p.1 p.2).symm
  rw [e, getlines_terminated]
  · simp [getlines, extractLines]
  · intro l hl
    obtain ⟨p, hp, rfl⟩ := List.mem_map.mp hl
    exact newline_not_mem_entryText p (h p hp)

theorem foldlM_parseLine_records (index acc : Index) (h : ∀ p ∈ index, cleanEntry p)
    (hn : (keys (acc ++ index)).Nodup) :
    (index.map (fun p => entryText p.1 p.2)).foldlM parseLine acc = some (acc ++ index) := by
  induction index generalizing acc with
  | nil => simp
  | cons p rest ih =>
    obtain ⟨k, v⟩ := p
    have hp : cleanEntry (k, v) := h (k, v) (List.mem_cons_self _ _)
    have hk : k ∉ keys acc := by
      simp only [keys, List.map_append, List.map_cons] at hn
      have := (List.nodup_append.mp hn).2.2
      intro hmem
      exact this hmem (List.mem_cons_self _ _)
    have hn' : (keys ((acc ++ [(k, v)]) ++ rest)).Nodup := by
      simpa [List.append_assoc] using hn
    have hstep : parseLine acc (entryText k v) = some (acc ++ [(k, v)]) := by
      rw [parseLine_record acc k v hp.1 hp.2.1 hp.2.2.1 hp.2.2.2.1
        (fun f hf => ⟨(hp.2.2.2.2 f hf).1, (hp.2.2.2.2 f hf).2.1⟩)]
      unfold assign
      rw [atKey_of_not_mem k [] _ acc hk]
    rw [List.map_cons, List.foldlM_cons, hstep]
    simp only [Option.bind_eq_bind, Option.some_bind]
    rw [ih (acc ++ [(k, v)]) (fun q hq => h q (List.mem_cons_of_mem _ hq)) hn']
    simp [List.append_assoc]

/-- Decoding what was encoded gives back the very same index when its entries are
clean. -/
theorem load_save_eq (index : Index) (hn : (keys index).Nodup)
    (h : ∀ p ∈ index, cleanEntry p) :
    loadDecryptedIndex (some (saveEncryptedIndex index)) = some index := by
  unfold loadDecryptedIndex
  simp only []
  rw [saveEncryptedIndex_eq, xorEncryptDecrypt_involutive]
  unfold parseIndex
  rw [getlines_specPlaintext index h]
  have := foldlM_parseLine_records index [] h (by simpa using hn)
  simpa using this

/-- C1 (as stated, refuted). The one-document directory `a,b.txt` with text `cat` gives
the index `cat ↦ [a,b.txt]`, whose term and posting list are non-empty; what is decoded
from its encoding is `cat ↦ [a, b.txt]`, a different set of identifiers. -/
theorem C1_round_trip_counterexample :
    buildIndex [(lit "a,b.txt", lit "cat")] = [(lit "cat", [lit "a,b.txt"])] ∧
    (keys [(lit "cat", [lit "a,b.txt"])]).Nodup ∧
    (∀ p ∈ [(lit "cat", [lit "a,b.txt"])], p.1 ≠ [] ∧ p.2 ≠ []) ∧
    loadDecryptedIndex (some (saveEncryptedIndex [(lit "cat", [lit "a,b.txt"])]))
      = some [(lit "cat", [lit "a", lit "b.txt"])] ∧
    ¬ sameSets [(lit "cat", [lit "a,b.txt"])] [(lit "cat", [lit "a", lit "b.txt"])] := by
  refine ⟨by decide, by decide, by decide, by decide, ?_⟩
  intro h
  have hp : posted [(lit "cat", [lit "a", lit "b.txt"])] (lit "cat") (lit "a") :=
    ⟨[lit "a", lit "b.txt"], by decide, by decide⟩
  obtain ⟨files, hfind, hmem⟩ := (h.2 (lit "cat") (lit "a")).mp hp
  have hfiles : files = [lit "a,b.txt"] := by
    have : find [(lit "cat", [lit "a,b.txt"])] (lit "cat") = some [lit "a,b.txt"] := by decide
    rw [this] at hfind
    exact (Option.some.inj hfind).symm
  subst hfiles
  revert hmem
  decide

/-- C1 (amended). Round-trip: for every index with distinct terms whose entries are
clean (terms non-empty, free of `:` and of whitespace; posting lists non-empty, every
identifier non-empty and free of `,` and `\n`), decoding what `saveEncryptedIndex`
writes succeeds and yields an index with the same set of terms and, for each term, the
same set of document identifiers. -/
theorem C1_round_trip_clean (i : Index) (hn : (keys i).Nodup)
    (h : ∀ p ∈ i, cleanEntry p) :
    ∃ j, loadDecryptedIndex (some (saveEncryptedIndex i)) = some j ∧ sameSets i j :=
  ⟨i, load_save_eq i hn h, fun _ => Iff.rfl, fun _ _ => Iff.rfl⟩

/-- C1 (amended), at the index `the ↦ [a.txt]`, `cat ↦ [a.txt, b.txt]`. -/
theorem C1_round_trip_clean_witness :
    (keys [(lit "the", [lit "a.txt"]), (lit "cat", [lit "a.txt", lit "b.txt"])]).Nodup ∧
    (∀ p ∈ [(lit "the", [lit "a.txt"]), (lit "cat", [lit "a.txt", lit "b.txt"])],
      cleanEntry p) ∧
    ∃ j, loadDecryptedIndex (some (saveEncryptedIndex
        [(lit "the", [lit "a.txt"]), (lit "cat", [lit "a.txt", lit "b.txt"])])) = some j ∧
      sameSets [(lit "the", [lit "a.txt"]), (lit "cat", [lit "a.txt", lit "b.txt"])] j :=
  ⟨by decide, by decide, C1_round_trip_clean _ (by decide) (by decide)⟩

/-! ### Malformed lines -/

theorem joinLines_append (a b : List Str) : joinLines (a ++ b) = joinLines a ++ joinLines b := by
  simp [joinLines]

theorem joinLines_cons (l : Str) (ls : List Str) :
    joinLines (l :: ls) = l ++ 10 :: joinLines ls := by
  simp [joinLines]

theorem parseIndex_skip_line (ls1 ls2 : List Str) (bad : Str) (hc : 58 ∉ bad)
    (hn : 10 ∉ bad) :
    parseIndex (joinLines (ls1 ++ bad :: ls2)) = parseIndex (joinLines (ls1 ++ ls2)) := by
  unfold parseIndex
  rw [joinLines_append, joinLines_append, joinLines_cons, getlines_joinLines_append,
    getlines_joinLines_append]
  have e : getlines 10 (bad ++ 10 :: joinLines ls2) = bad :: getlines 10 (joinLines ls2) := by
    unfold getlines
    rw [extractLines_append_delim 10 bad _ [] hn]
    simp
  rw [e, List.foldlM_append, List.foldlM_append]
  congr 1
  funext index
  rw [List.foldlM_cons, parseLine_no_colon index bad hc]
  rfl

/-- C8. Malformed-record tolerance: in a plaintext made of complete lines, an extra
line without `:` (and without newline) inserted at any line boundary does not change
the decoded index; in particular the transform of one well-formed record and one
record without `:` decodes to the index holding only the well-formed record. -/
theorem C8_malformed_record_tolerance :
    (∀ (ls1 ls2 : List Str) (bad : Str), 58 ∉ bad → 10 ∉ bad →
      loadDecryptedIndex (some (xorEncryptDecrypt (joinLines (ls1 ++ bad :: ls2))))
        = loadDecryptedIndex (some (xorEncryptDecrypt (joinLines (ls1 ++ ls2))))) ∧
    loadDecryptedIndex (some (xorEncryptDecrypt (lit "cat:a.txt,\nno separator here\n")))
      = some [(lit "cat", [lit "a.txt"])] ∧
    loadDecryptedIndex (some (xorEncryptDecrypt (lit "no separator here\ncat:a.txt,\n")))
      = some [(lit "cat", [lit "a.txt"])] := by
  refine ⟨?_, by decide, by decide⟩
  intro ls1 ls2 bad hc hn
  simp only [loadDecryptedIndex, xorEncryptDecrypt_involutive]
  exact parseIndex_skip_line ls1 ls2 bad hc hn

/-- C8, at the lines `the:a.txt,` and `cat:b.txt,` with `garbage` put between them. -/
theorem C8_malformed_record_tolerance_witness :
    58 ∉ lit "garbage" ∧ 10 ∉ lit "garbage" ∧
    loadDecryptedIndex (some (xorEncryptDecrypt
        (joinLines ([lit "the:a.txt,"] ++ lit "garbage" :: [lit "cat:b.txt,"]))))
      = loadDecryptedIndex (some (xorEncryptDecrypt
        (joinLines ([lit "the:a.txt,"] ++ [lit "cat:b.txt,"])))) :=
  ⟨by decide, by decide,
    C8_malformed_record_tolerance.1 [lit "the:a.txt,"] [lit "cat:b.txt,"] (lit "garbage")
      (by decide) (by decide)⟩

/-! ### What a loaded index looks like -/

theorem mem_keys_atKey {α : Type} (k : Str) (dflt : α) (f : α → α) (m : Table α) (k' : Str) :
    k' ∈ keys (atKey k dflt f m) ↔ k' = k ∨ k' ∈ keys m := by
  by_cases h : k ∈ keys m
  · rw [keys_atKey_of_mem k dflt f m h]
    constructor
    · exact Or.inr
    · rintro (e | e)
      · exact e ▸ h
      · exact e
  · rw [atKey_of_not_mem k dflt f m h]
    simp only [keys, List.map_append, List.map_cons, List.map_nil, List.mem_append,
      List.mem_singleton]
    exact Or.comm

/-- A line either leaves the index as it is or assigns a non-empty list to a non-empty
term. -/
theorem parseLine_shape (index index' : Index) (line : Str)
    (h : parseLine index line = some index') :
    index' = index ∨
      ∃ word files, word ≠ [] ∧ files ≠ [] ∧ index' = assign index word files [] := by
  unfold parseLine at h
  cases hf : strFind line 58 with
  | none =>
    rw [hf] at h
    exact Or.inl (Option.some.inj h).symm
  | some pos =>
    rw [hf] at h
    have hlt := strFind_lt line 58 pos hf
    have h1 : ¬ line.length < 0 := by omega
    have h2 : ¬ line.length < pos + 1 := by omega
    simp only [substr, h1, h2, if_false, Option.bind_eq_bind, Option.some_bind] at h
    split_ifs at h with hc hv hv
    · exact Or.inr ⟨_, _, hv.1, hv.2, (Option.some.inj h).symm⟩
    · exact Or.inl (Option.some.inj h).symm
    · exact Or.inr ⟨_, _, hv.1, hv.2, (Option.some.inj h).symm⟩
    · exact Or.inl (Option.some.inj h).symm

theorem parseLine_keys (index index' : Index) (line : Str)
    (h : parseLine index line = some index')
    (hk : (keys index).Nodup ∧ [] ∉ keys index) :
    (keys index').Nodup ∧ [] ∉ keys index' := by
  rcases parseLine_shape index index' line h with e | ⟨word, files, hw, _, e⟩
  · rw [e]; exact hk
  · rw [e]
    unfold assign
    refine ⟨nodup_keys_atKey _ _ _ _ hk.1, ?_⟩
    intro hmem
    rcases (mem_keys_atKey _ _ _ _ _).mp hmem with e' | e'
    · exact hw e'.symm
    · exact hk.2 e'

theorem foldlM_parseLine_keys (lines : List Str) (index index' : Index)
    (h : lines.foldlM parseLine index = some index')
    (hk : (keys index).Nodup ∧ [] ∉ keys index) :
    (keys index').Nodup ∧ [] ∉ keys index' := by
  induction lines generalizing index with
  | nil =>
    simp only [List.foldlM_nil] at h
    have e : index = index' := Option.some.inj h
    rw [← e]; exact hk
  | cons l ls ih =>
    rw [List.foldlM_cons] at h
    obtain ⟨i1, h1⟩ := parseLine_total index l
    rw [h1] at h
    exact ih i1 h (parseLine_keys index i1 l h1 hk)

/-- The terms of a loaded index are pairwise distinct and none of them is empty. -/
theorem loadDecryptedIndex_keys (file : Option Str) (index : Index)
    (h : loadDecryptedIndex file = some index) :
    (keys index).Nodup ∧ [] ∉ keys index := by
  cases file with
  | none =>
    have e : ([] : Index) = index := Option.some.inj h
    rw [← e]
    exact ⟨List.nodup_nil, by simp [keys]⟩
  | some enc =>
    exact foldlM_parseLine_keys _ [] index h ⟨List.nodup_nil, by simp [keys]⟩

/-! ### Queries -/

theorem searchWord_eq (file : Option Str) (index : Index) (query : Str)
    (h : loadDecryptedIndex file = some index) :
    searchWord file query = some (searchIndex index (cleanToken query)) := by
  simp [searchWord, h]

theorem searchIndex_found (index : Index) (hn : (keys index).Nodup) (q : Str)
    (files : List Str) (h : (q, files) ∈ index) :
    searchIndex index q = Lookup.Found q files := by
  have := (find_eq_some_iff index hn q files).mpr h
  simp [searchIndex, this]

/-- C5. Exact lookup: when the cleaned query is a term of the index, `searchWord`
takes the Found branch with the cleaned query and that term's posting list as stored -
for every index with distinct terms, and so for the index loaded from any file; on the
index `the ↦ a.txt; cat ↦ a.txt, b.txt; sat ↦ a.txt; dog ↦ b.txt` the query `Cat` is
Found as `cat` in `a.txt`, `b.txt`, and printed so. -/
theorem C5_exact_lookup :
    (∀ (index : Index) (q : Str) (files : List Str), (keys index).Nodup →
      (cleanToken q, files) ∈ index →
      searchIndex index (cleanToken q) = Lookup.Found (cleanToken q) files) ∧
    (∀ (file : Option Str) (index : Index) (q : Str) (files : List Str),
      loadDecryptedIndex file = some index → (cleanToken q, files) ∈ index →
      searchWord file q = some (Lookup.Found (cleanToken q) files)) ∧
    searchWord (some (saveEncryptedIndex
        [(lit "the", [lit "a.txt"]), (lit "cat", [lit "a.txt", lit "b.txt"]),
         (lit "sat", [lit "a.txt"]), (lit "dog", [lit "b.txt"])])) (lit "Cat")
      = some (Lookup.Found (lit "cat") [lit "a.txt", lit "b.txt"]) ∧
    render (Lookup.Found (lit "cat") [lit "a.txt", lit "b.txt"])
      = lit "Found 'cat' in:\n - a.txt\n - b.txt\n" := by
  refine ⟨?_, ?_, by decide, by decide⟩
  · intro index q files hn hm
    exact searchIndex_found index hn _ files hm
  · intro file index q files hl hm
    rw [searchWord_eq file index q hl,
      searchIndex_found index (loadDecryptedIndex_keys file index hl).1 _ files hm]

/-- C5, at the stored index `cat ↦ a.txt, b.txt; dog ↦ b.txt` and the query `CAT!`. -/
theorem C5_exact_lookup_witness :
    loadDecryptedIndex (some (xorEncryptDecrypt (lit "cat:a.txt,b.txt,\ndog:b.txt,\n")))
      = some [(lit "cat", [lit "a.txt", lit "b.txt"]), (lit "dog", [lit "b.txt"])] ∧
    (cleanToken (lit "CAT!"), [lit "a.txt", lit "b.txt"]) ∈
      [(lit "cat", [lit "a.txt", lit "b.txt"]), (lit "dog", [lit "b.txt"])] ∧
    searchWord (some (xorEncryptDecrypt (lit "cat:a.txt,b.txt,\ndog:b.txt,\n"))) (lit "CAT!")
      = some (Lookup.Found (cleanToken (lit "CAT!")) [lit "a.txt", lit "b.txt"]) :=
  ⟨by decide, by decide,
    C5_exact_lookup.2.1 (some (xorEncryptDecrypt (lit "cat:a.txt,b.txt,\ndog:b.txt,\n")))
      [(lit "cat", [lit "a.txt", lit "b.txt"]), (lit "dog", [lit "b.txt"])] (lit "CAT!")
      [lit "a.txt", lit "b.txt"] (by decide) (by decide)⟩

theorem strFindStr_isSome_iff (w q : Str) : (strFindStr w q).isSome = true ↔ q <:+: w := by
  induction w with
  | nil =>
    by_cases hq : q = []
    · simp [strFindStr, hq]
    · simp [strFindStr, hq]
  | cons c cs ih =>
    rw [List.infix_cons_iff]
    by_cases hp : q.isPrefixOf (c :: cs) = true
    · have hp' : q <+: c :: cs := List.isPrefixOf_iff_prefix.mp hp
      simp [strFindStr, hp, hp']
    · have hp' : ¬ q <+: c :: cs := fun e => hp (List.isPrefixOf_iff_prefix.mpr e)
      simp only [strFindStr, hp, Bool.false_eq_true, if_false, Option.isSome_map', hp',
        false_or]
      exact ih

theorem searchIndex_notFound (index : Index) (hn : (keys index).Nodup) (q : Str)
    (h : q ∉ keys index) :
    ∃ suggestions, searchIndex index q = Lookup.NotFound q suggestions ∧
      (∀ w, w ∈ suggestions ↔ w ∈ keys index ∧ q <:+: w) ∧ suggestions.Nodup := by
  have hf := (find_eq_none_iff index q).mpr h
  refine ⟨(keys index).filter (fun word => (strFindStr word q).isSome), ?_, ?_, ?_⟩
  · simp [searchIndex, hf]
  · intro w
    rw [List.mem_filter, strFindStr_isSome_iff]
  · exact hn.filter _

/-- C6. Suggestions on a miss: when the cleaned query is not a term of the index,
`searchWord` takes the NotFound branch and the suggestions are exactly the terms of the
index that contain the cleaned query as a contiguous substring, each once - for every
index with distinct terms, and so for the index loaded from any file; with the terms
`the`, `cat`, `sat`, `dog` the query `ca` is NotFound and `cat` is suggested. -/
theorem C6_suggestions_on_miss :
    (∀ (index : Index) (q : Str), (keys index).Nodup → cleanToken q ∉ keys index →
      ∃ suggestions,
        searchIndex index (cleanToken q) = Lookup.NotFound (cleanToken q) suggestions ∧
        (∀ w, w ∈ suggestions ↔ w ∈ keys index ∧ cleanToken q <:+: w) ∧
        suggestions.Nodup) ∧
    (∀ (file : Option Str) (index : Index) (q : Str),
      loadDecryptedIndex file = some index → cleanToken q ∉ keys index →
      ∃ suggestions,
        searchWord file q = some (Lookup.NotFound (cleanToken q) suggestions) ∧
        (∀ w, w ∈ suggestions ↔ w ∈ keys index ∧ cleanToken q <:+: w) ∧
        suggestions.Nodup) ∧
    searchWord (some (saveEncryptedIndex
        [(lit "the", [lit "a.txt"]), (lit "cat", [lit "a.txt", lit "b.txt"]),
         (lit "sat", [lit "a.txt"]), (lit "dog", [lit "b.txt"])])) (lit "ca")
      = some (Lookup.NotFound (lit "ca") [lit "cat"]) ∧
    render (Lookup.NotFound (lit "ca") [lit "cat"])
      = lit "No results for 'ca'\nDid you mean:\n - cat\n" := by
  refine ⟨?_, ?_, by decide, by decide⟩
  · intro index q hn hq
    exact searchIndex_notFound index hn _ hq
  · intro file index q hl hq
    rw [searchWord_eq file index q hl]
    obtain ⟨s, h1, h2⟩ :=
      searchIndex_notFound index (loadDecryptedIndex_keys file index hl).1 _ hq
    exact ⟨s, by rw [h1], h2⟩

/-- C6, at the stored index `cat ↦ a.txt; scatter ↦ b.txt; dog ↦ b.txt` and the
query `Ca.`. -/
theorem C6_suggestions_on_miss_witness :
    loadDecryptedIndex (some (xorEncryptDecrypt (lit "cat:a.txt,\nscatter:b.txt,\ndog:b.txt,\n")))
      = some [(lit "cat", [lit "a.txt"]), (lit "scatter", [lit "b.txt"]),
          (lit "dog", [lit "b.txt"])] ∧
    cleanToken (lit "Ca.") ∉
      keys [(lit "cat", [lit "a.txt"]), (lit "scatter", [lit "b.txt"]),
        (lit "dog", [lit "b.txt"])] ∧
    ∃ suggestions,
      searchWord (some (xorEncryptDecrypt (lit "cat:a.txt,\nscatter:b.txt,\ndog:b.txt,\n")))
          (lit "Ca.") = some (Lookup.NotFound (cleanToken (lit "Ca.")) suggestions) ∧
      (∀ w, w ∈ suggestions ↔
        w ∈ keys [(lit "cat", [lit "a.txt"]), (lit "scatter", [lit "b.txt"]),
          (lit "dog", [lit "b.txt"])] ∧ cleanToken (lit "Ca.") <:+: w) ∧
      suggestions.Nodup :=
  ⟨by decide, by decide,
    C6_suggestions_on_miss.2.1
      (some (xorEncryptDecrypt (lit "cat:a.txt,\nscatter:b.txt,\ndog:b.txt,\n")))
      [(lit "cat", [lit "a.txt"]), (lit "scatter", [lit "b.txt"]), (lit "dog", [lit "b.txt"])]
      (lit "Ca.") (by decide) (by decide)⟩

theorem strFindStr_nil (w : Str) : strFindStr w [] = some 0 := by
  cases w with
  | nil => rfl
  | cons c cs => simp [strFindStr, List.isPrefixOf]

theorem searchIndex_empty_query (index : Index) (h : [] ∉ keys index) :
    searchIndex index [] = Lookup.NotFound [] (keys index) := by
  have hf := (find_eq_none_iff index []).mpr h
  have hall : (keys index).filter (fun word => (strFindStr word []).isSome) = keys index :=
    List.filter_eq_self.mpr (fun w _ => by simp [strFindStr_nil])
  simp only [searchIndex, hf, hall]

/-- C7. Empty-query suggestion-all: whatever the index file holds (any bytes, or no
readable file at all), decoding yields an index, and a query that normalizes to the
empty string is then never Found: `searchWord` takes the NotFound branch for the empty
term and suggests all terms of that index, each once. -/
theorem C7_empty_query_suggests_all (file : Option Str) (q : Str)
    (hq : cleanToken q = []) :
    ∃ index, loadDecryptedIndex file = some index ∧
      searchWord file q = some (Lookup.NotFound [] (keys index)) ∧
      (keys index).Nodup := by
  obtain ⟨index, hl⟩ := loadDecryptedIndex_total file
  have hk := loadDecryptedIndex_keys file index hl
  refine ⟨index, hl, ?_, hk.1⟩
  rw [searchWord_eq file index q hl, hq, searchIndex_empty_query index hk.2]

/-- C7, at the stored index `the ↦ a.txt; cat ↦ a.txt, b.txt` and the query `!!!`. -/
theorem C7_empty_query_suggests_all_witness :
    cleanToken (lit "!!!") = [] ∧
    loadDecryptedIndex (some (xorEncryptDecrypt (lit "the:a.txt,\ncat:a.txt,b.txt,\n")))
      = some [(lit "the", [lit "a.txt"]), (lit "cat", [lit "a.txt", lit "b.txt"])] ∧
    ∃ index,
      loadDecryptedIndex (some (xorEncryptDecrypt (lit "the:a.txt,\ncat:a.txt,b.txt,\n")))
        = some index ∧
      searchWord (some (xorEncryptDecrypt (lit "the:a.txt,\ncat:a.txt,b.txt,\n"))) (lit "!!!")
        = some (Lookup.NotFound [] (keys index)) ∧
      (keys index).Nodup :=
  ⟨by decide, by decide,
    C7_empty_query_suggests_all
      (some (xorEncryptDecrypt (lit "the:a.txt,\ncat:a.txt,b.txt,\n"))) (lit "!!!") (by decide)⟩

/-! ### Command line -/

/-- C9 (the code at the failing inputs). An unknown subcommand, `search` without a
word and `search` with two words all print the error text on `cerr` and return 0,
whatever the files hold; only the run without any argument returns 1. -/
theorem C9_invalid_invocation_status (env : Env) :
    main env [lit "cryptoseek", lit "bogus"]
      = some ⟨0, [], lit "Invalid command or arguments.\n", env.indexFile⟩ ∧
    main env [lit "cryptoseek", lit "search"]
      = some ⟨0, [], lit "Invalid command or arguments.\n", env.indexFile⟩ ∧
    main env [lit "cryptoseek", lit "search", lit "cat", lit "dog"]
      = some ⟨0, [], lit "Invalid command or arguments.\n", env.indexFile⟩ ∧
    main env [lit "cryptoseek"] = some ⟨1, [], usage, env.indexFile⟩ := by
  refine ⟨?_, ?_, ?_, ?_⟩ <;> simp [main, lit]

/-! ### Word extraction -/

theorem nil_of_spaceFree_last (pre : Str) (hf : spaceFree pre)
    (hl : ∀ c, pre.getLast? = some c → isspace c = true) : pre = [] := by
  by_contra hne
  have hmem := List.getLast_mem hne
  have h1 := hl _ (List.getLast?_eq_getLast pre hne)
  rw [hf _ hmem] at h1
  exact Bool.false_ne_true h1

theorem isToken_of_space (cur cs tok : Str) (c : Nat) (hcur : spaceFree cur)
    (hc : isspace c = true) (h : isToken tok (cur ++ c :: cs)) :
    (cur ≠ [] ∧ tok = cur) ∨ isToken tok cs := by
  obtain ⟨hne, hfree, pre, post, heq, hpre, hpost⟩ := h
  rw [List.append_assoc] at heq
  rcases List.append_eq_append_iff.mp heq with ⟨a, hpre_eq, hrest⟩ | ⟨a, hcur_eq, hrest⟩
  · cases a with
    | nil =>
      exfalso
      cases tok with
      | nil => exact hne rfl
      | cons t ts =>
        simp only [List.nil_append, List.cons_append, List.cons.injEq] at hrest
        have := hfree t (List.mem_cons_self _ _)
        rw [← hrest.1, hc] at this
        exact Bool.noConfusion this
    | cons x a' =>
      simp only [List.cons_append, List.cons.injEq] at hrest
      right
      refine ⟨hne, hfree, a', post, by rw [hrest.2, List.append_assoc], ?_, hpost⟩
      intro z hz
      apply hpre z
      rw [hpre_eq]
      simp [List.getLast?_append, List.getLast?_cons, hz]
  · have hpre_nil : pre = [] := by
      apply nil_of_spaceFree_last pre _ hpre
      intro z hz
      exact hcur z (by rw [hcur_eq]; exact List.mem_append_left _ hz)
    subst hpre_nil
    simp only [List.nil_append] at hcur_eq
    subst hcur_eq
    rcases List.append_eq_append_iff.mp hrest with ⟨b, htok, hcs⟩ | ⟨b, hcur2, hpost_eq⟩
    · cases b with
      | nil =>
        left
        simp only [List.append_nil] at htok
        subst htok
        exact ⟨hne, rfl⟩
      | cons x b' =>
        exfalso
        have h1 := hpost x (by rw [hcs]; rfl)
        have h2 := hcur x (by rw [htok]; simp)
        rw [h2] at h1
        exact Bool.noConfusion h1
    · cases b with
      | nil =>
        left
        simp only [List.append_nil] at hcur2
        subst hcur2
        exact ⟨hne, rfl⟩
      | cons x b' =>
        exfalso
        simp only [List.cons_append, List.cons.injEq] at hpost_eq
        have := hfree x (by rw [hcur2]; simp)
        rw [← hpost_eq.1, hc] at this
        exact Bool.noConfusion this

theorem isToken_after_space (cur cs tok : Str) (c : Nat) (hc : isspace c = true)
    (h : isToken tok cs) : isToken tok (cur ++ c :: cs) := by
  obtain ⟨hne, hfree, pre, post, heq, hpre, hpost⟩ := h
  refine ⟨hne, hfree, cur ++ c :: pre, post, by simp [heq], ?_, hpost⟩
  intro z hz
  cases hp : pre.getLast? with
  | none =>
    simp [List.getLast?_append, List.getLast?_cons, hp] at hz
    rw [← hz]; exact hc
  | some y =>
    simp [List.getLast?_append, List.getLast?_cons, hp] at hz
    rw [← hz]; exact hpre y hp

theorem isToken_self_before_space (cur cs : Str) (c : Nat) (hcur : spaceFree cur)
    (hne : cur ≠ []) (hc : isspace c = true) : isToken cur (cur ++ c :: cs) :=
  ⟨hne, hcur, [], c :: cs, by simp, by simp, by simp [hc]⟩

theorem mem_extractWords_iff (text cur tok : Str) (hcur : spaceFree cur) :
    tok ∈ extractWords text cur ↔ isToken tok (cur ++ text) := by
  induction text generalizing cur with
  | nil =>
    rw [List.append_nil]
    constructor
    · intro h
      by_cases hn : cur = []
      · simp [extractWords, hn] at h
      · simp only [extractWords, hn, if_false, List.mem_singleton] at h
        subst h
        exact ⟨hn, hcur, [], [], by simp, by simp, by simp⟩
    · rintro ⟨hne, _, pre, post, heq, hpre, hpost⟩
      have hpre_nil : pre = [] := by
        apply nil_of_spaceFree_last pre _ hpre
        intro z hz
        exact hcur z (by rw [heq]; simp [hz])
      have hpost_nil : post = [] := by
        cases post with
        | nil => rfl
        | cons x xs =>
          have h1 := hpost x rfl
          have h2 := hcur x (by rw [heq]; simp)
          rw [h2] at h1
          exact Bool.noConfusion h1
      subst hpre_nil hpost_nil
      simp only [List.nil_append, List.append_nil] at heq
      subst heq
      simp [extractWords, hne]
  | cons c cs ih =>
    by_cases hc : isspace c = true
    · have ih0 := ih [] (fun _ h => by simp at h)
      rw [List.nil_append] at ih0
      constructor
      · intro h
        by_cases hn : cur = []
        · simp only [extractWords, hc, hn, if_true] at h
          exact isToken_after_space cur cs tok c hc (ih0.mp h)
        · simp only [extractWords, hc, hn, if_true, if_false, List.mem_cons] at h
          rcases h with h | h
          · subst h
            exact isToken_self_before_space tok cs c hcur hn hc
          · exact isToken_after_space cur cs tok c hc (ih0.mp h)
      · intro h
        rcases isToken_of_space cur cs tok c hcur hc h with ⟨hn, e⟩ | h'
        · simp [extractWords, hc, hn, e]
        · by_cases hn : cur = []
          · simp only [extractWords, hc, hn, if_true]
            exact ih0.mpr h'
          · simp only [extractWords, hc, hn, if_true, if_false, List.mem_cons]
            exact Or.inr (ih0.mpr h')
    · have hc' : isspace c = false := by simpa using hc
      have hcur' : spaceFree (cur ++ [c]) := by
        intro z hz
        rcases List.mem_append.mp hz with h | h
        · exact hcur z h
        · simp only [List.mem_singleton] at h
          rw [h]; exact hc'
      have := ih (cur ++ [c]) hcur'
      simp only [List.append_assoc, List.singleton_append] at this
      simp only [extractWords, hc', Bool.false_eq_true, if_false]
      exact this

/-- The words read from a text are exactly its whitespace-delimited tokens. -/
theorem mem_words_iff (text tok : Str) : tok ∈ words text ↔ isToken tok text := by
  have := mem_extractWords_iff text [] tok (fun _ h => by simp at h)
  simpa [words] using this

/-! ### Building the index -/

theorem strLt_total (x y : Str) (h1 : strLt x y = false) (h2 : strLt y x = false) :
    x = y := by
  induction x generalizing y with
  | nil =>
    cases y with
    | nil => rfl
    | cons b bs => simp [strLt] at h1
  | cons a as ih =>
    cases y with
    | nil => simp [strLt] at h2
    | cons b bs =>
      simp only [strLt] at h1 h2
      by_cases hab : a < b
      · simp [hab] at h1
      · by_cases hba : b < a
        · simp [hba] at h2
        · have e : a = b := by omega
          subst e
          simp only [lt_self_iff_false, if_false] at h1 h2
          rw [ih bs h1 h2]

theorem mem_setInsert (x d : Str) (s : List Str) : d ∈ setInsert x s ↔ d = x ∨ d ∈ s := by
  induction s with
  | nil => simp [setInsert]
  | cons y ys ih =>
    unfold setInsert
    by_cases h1 : strLt x y = true
    · simp [h1]
    · by_cases h2 : strLt y x = true
      · rw [if_neg h1, if_pos h2]
        simp only [List.mem_cons, ih]
        tauto
      · have e : x = y := strLt_total x y (by simpa using h1) (by simpa using h2)
        subst e
        simp [h1]

theorem posted_addWord (name word t d : Str) (m : Index) :
    posted (addWord name m word) t d ↔
      posted m t d ∨ (t ≠ [] ∧ cleanToken word = t ∧ d = name) := by
  unfold addWord
  by_cases hc : cleanToken word = []
  · simp only [hc, ne_eq, not_true_eq_false, if_false]
    constructor
    · exact Or.inl
    · rintro (h | ⟨h1, h2, _⟩)
      · exact h
      · exact absurd h2.symm h1
  · simp only [ne_eq, hc, not_false_eq_true, if_true]
    unfold posted
    by_cases ht : t = cleanToken word
    · subst ht
      constructor
      · rintro ⟨files, hf, hd⟩
        rw [find_atKey, if_pos rfl] at hf
        have e := Option.some.inj hf
        rw [← e, mem_setInsert] at hd
        rcases hd with h | h
        · exact Or.inr ⟨hc, rfl, h⟩
        · left
          cases hfm : find m (cleanToken word) with
          | none => simp [hfm] at h
          | some files' => exact ⟨files', rfl, by simpa [hfm] using h⟩
      · rintro (⟨files, hf, hd⟩ | ⟨_, _, h⟩)
        · refine ⟨_, by rw [find_atKey, if_pos rfl], ?_⟩
          rw [mem_setInsert, hf]
          exact Or.inr hd
        · refine ⟨_, by rw [find_atKey, if_pos rfl], ?_⟩
          rw [mem_setInsert]
          exact Or.inl h
    · have ht' : ¬ cleanToken word = t := fun e => ht e.symm
      simp only [find_atKey, ht, if_false, ht', false_and, and_false, or_false]

theorem posted_foldl_addWord (name t d : Str) (ws : List Str) (m : Index) :
    posted (ws.foldl (addWord name) m) t d ↔
      posted m t d ∨ (t ≠ [] ∧ d = name ∧ ∃ w ∈ ws, cleanToken w = t) := by
  induction ws generalizing m with
  | nil => simp
  | cons w ws ih =>
    rw [List.foldl_cons, ih, posted_addWord]
    constructor
    · rintro ((h | ⟨h1, h2, h3⟩) | ⟨h1, h2, w', hw', h3⟩)
      · exact Or.inl h
      · exact Or.inr ⟨h1, h3, w, List.mem_cons_self _ _, h2⟩
      · exact Or.inr ⟨h1, h2, w', List.mem_cons_of_mem _ hw', h3⟩
    · rintro (h | ⟨h1, h2, w', hw', h3⟩)
      · exact Or.inl (Or.inl h)
      · rcases List.mem_cons.mp hw' with e | e
        · subst e
          exact Or.inl (Or.inr ⟨h1, h3, h2⟩)
        · exact Or.inr ⟨h1, h2, w', e, h3⟩

theorem posted_addEntry (t d : Str) (e : Str × Str) (m : Index) :
    posted (addEntry m e) t d ↔
      posted m t d ∨
        (extension e.1 = lit ".txt" ∧ t ≠ [] ∧ d = e.1 ∧ ∃ w ∈ words e.2, cleanToken w = t) := by
  unfold addEntry
  by_cases hx : extension e.1 = lit ".txt"
  · simp only [hx, if_true, true_and]
    exact posted_foldl_addWord e.1 t d (words e.2) m
  · simp only [hx, if_false, false_and, or_false]

theorem posted_foldl_addEntry (t d : Str) (entries : List (Str × Str)) (m : Index) :
    posted (entries.foldl addEntry m) t d ↔
      posted m t d ∨
        (t ≠ [] ∧ ∃ text, (d, text) ∈ corpus entries ∧ ∃ w ∈ words text, cleanToken w = t) := by
  induction entries generalizing m with
  | nil => simp [corpus]
  | cons e es ih =>
    rw [List.foldl_cons, ih, posted_addEntry]
    obtain ⟨name, text⟩ := e
    constructor
    · rintro ((h | ⟨hx, h1, h2, h3⟩) | ⟨h1, text', hm, h3⟩)
      · exact Or.inl h
      · right
        refine ⟨h1, text, ?_, h3⟩
        simp only at h2
        subst h2
        simp [corpus, List.filter_cons, hx]
      · right
        refine ⟨h1, text', ?_, h3⟩
        unfold corpus at hm ⊢
        rw [List.filter_cons]
        split
        · exact List.mem_cons_of_mem _ hm
        · exact hm
    · rintro (h | ⟨h1, text', hm, h3⟩)
      · exact Or.inl (Or.inl h)
      · unfold corpus at hm
        rw [List.filter_cons] at hm
        split at hm
        · next hx =>
          rcases List.mem_cons.mp hm with e | e
          · simp only [Prod.mk.injEq] at e
            obtain ⟨rfl, rfl⟩ := e
            exact Or.inl (Or.inr ⟨by simpa using hx, h1, rfl, h3⟩)
          · exact Or.inr ⟨h1, text', e, h3⟩
        · exact Or.inr ⟨h1, text', hm, h3⟩

theorem nodup_keys_addWord (name word : Str) (m : Index) (h : (keys m).Nodup) :
    (keys (addWord name m word)).Nodup := by
  simp only [addWord]
  split
  · exact nodup_keys_atKey _ _ _ _ h
  · exact h

theorem nodup_keys_foldl_addWord (name : Str) (ws : List Str) (m : Index)
    (h : (keys m).Nodup) : (keys (ws.foldl (addWord name) m)).Nodup := by
  induction ws generalizing m with
  | nil => exact h
  | cons w ws ih => exact ih _ (nodup_keys_addWord name w m h)

theorem nodup_keys_addEntry (e : Str × Str) (m : Index) (h : (keys m).Nodup) :
    (keys (addEntry m e)).Nodup := by
  unfold addEntry
  split
  · exact nodup_keys_foldl_addWord _ _ _ h
  · exact h

theorem nodup_keys_foldl_addEntry (entries : List (Str × Str)) (m : Index)
    (h : (keys m).Nodup) : (keys (entries.foldl addEntry m)).Nodup := by
  induction entries generalizing m with
  | nil => exact h
  | cons e es ih => exact ih _ (nodup_keys_addEntry e m h)

theorem lastPeriod_append_txt (stem : Str) :
    lastPeriod (stem ++ lit ".txt") = some (lit ".txt") := by
  induction stem with
  | nil => decide
  | cons c cs ih => simp [lastPeriod, ih]

theorem extension_txt (stem : Str) (h : stem ≠ []) :
    extension (stem ++ lit ".txt") = lit ".txt" := by
  cases stem with
  | nil => exact absurd rfl h
  | cons c cs =>
    have hlen : (c :: cs ++ lit ".txt").length ≥ 5 := by
      simp [lit]
    have h1 : ¬ (c :: cs ++ lit ".txt" = [46] ∨ c :: cs ++ lit ".txt" = [46, 46]) := by
      rintro (e | e) <;> rw [e] at hlen <;> simp at hlen
    unfold extension
    rw [if_neg h1]
    simp [lastPeriod_append_txt]

/-- The final index has the entries of the temporary one, the sets listed in ascending
order. -/
theorem buildIndex_eq (entries : List (Str × Str)) :
    buildIndex entries = entries.foldl addEntry [] := by
  unfold buildIndex
  have h := nodup_keys_foldl_addEntry entries [] List.nodup_nil
  have := foldl_assign_eq ([] : List Str) (entries.foldl addEntry []) [] (by simpa using h)
  simpa using this

theorem posted_buildIndex (entries : List (Str × Str)) (t d : Str) :
    posted (buildIndex entries) t d ↔
      t ≠ [] ∧ ∃ text tok, (d, text) ∈ corpus entries ∧ isToken tok text ∧
        cleanToken tok = t := by
  rw [buildIndex_eq, posted_foldl_addEntry]
  constructor
  · rintro (⟨files, hf, _⟩ | ⟨h1, text, hm, w, hw, h3⟩)
    · simp [find] at hf
    · exact ⟨h1, text, w, hm, (mem_words_iff text w).mp hw, h3⟩
  · rintro ⟨h1, text, tok, hm, htok, h3⟩
    exact Or.inr ⟨h1, text, hm, tok, (mem_words_iff text tok).mpr htok, h3⟩

/-- C4. Index construction: the index `buildIndex` returns maps a term `t` to a posting
list containing the identifier `d` if and only if `t` is non-empty and the corpus (the
`.txt` entries of the directory) has a document `d` whose text has a
whitespace-delimited token that `cleanToken` turns into `t`; a corpus whose names all
end in `.txt` is used whole; and the corpus `a.txt` = "The cat sat", `b.txt` =
"cat! dog." yields exactly `the ↦ a.txt; cat ↦ a.txt, b.txt; sat ↦ a.txt; dog ↦ b.txt`. -/
theorem C4_index_construction :
    (∀ (entries : List (Str × Str)) (t d : Str),
      posted (buildIndex entries) t d ↔
        t ≠ [] ∧ ∃ text tok, (d, text) ∈ corpus entries ∧ isToken tok text ∧
          cleanToken tok = t) ∧
    (∀ (entries : List (Str × Str)),
      (∀ e ∈ entries, ∃ stem, stem ≠ [] ∧ e.1 = stem ++ lit ".txt") →
      corpus entries = entries) ∧
    buildIndex [(lit "a.txt", lit "The cat sat"), (lit "b.txt", lit "cat! dog.")]
      = [(lit "the", [lit "a.txt"]), (lit "cat", [lit "a.txt", lit "b.txt"]),
         (lit "sat", [lit "a.txt"]), (lit "dog", [lit "b.txt"])] := by
  refine ⟨posted_buildIndex, ?_, by decide⟩
  intro entries h
  unfold corpus
  rw [List.filter_eq_self]
  intro e he
  obtain ⟨stem, hne, hname⟩ := h e he
  simp only [decide_eq_true_eq]
  rw [hname]
  exact extension_txt stem hne

/-- C4, at the two-document corpus of the example: all of it is indexed. -/
theorem C4_index_construction_witness :
    (∀ e ∈ [(lit "a.txt", lit "The cat sat"), (lit "b.txt", lit "cat! dog.")],
      ∃ stem, stem ≠ [] ∧ e.1 = stem ++ lit ".txt") ∧
    corpus [(lit "a.txt", lit "The cat sat"), (lit "b.txt", lit "cat! dog.")]
      = [(lit "a.txt", lit "The cat sat"), (lit "b.txt", lit "cat! dog.")] :=
  have h : ∀ e ∈ [(lit "a.txt", lit "The cat sat"), (lit "b.txt", lit "cat! dog.")],
      ∃ stem, stem ≠ [] ∧ e.1 = stem ++ lit ".txt" := by
    intro e he
    simp only [List.mem_cons, List.mem_singleton, List.not_mem_nil, or_false] at he
    rcases he with rfl | rfl
    · exact ⟨lit "a", by decide, by decide⟩
    · exact ⟨lit "b", by decide, by decide⟩
  ⟨h, C4_index_construction.2.1 _ h⟩

/-! ### The normalizer, character by character -/

theorem ispunct_iff_mem (c : Nat) : ispunct c = true ↔ c ∈ asciiPunctuation := by
  simp only [ispunct, asciiPunctuation, List.mem_cons, List.mem_singleton, List.not_mem_nil,
    Bool.or_eq_true, Bool.and_eq_true, decide_eq_true_eq, or_false]
  omega

theorem cleanToken_eq_specNormalize (s : Str) : cleanToken s = specNormalize s := by
  induction s with
  | nil => rfl
  | cons c cs ih =>
    simp only [cleanToken, toLower] at ih
    by_cases hp : ispunct c = true
    · have hm : c ∈ asciiPunctuation := (ispunct_iff_mem c).mp hp
      simp only [cleanToken, toLower, specNormalize, List.filter_cons, hp, Bool.not_true,
        Bool.false_eq_true, if_false, hm, if_true]
      exact ih
    · have hm : c ∉ asciiPunctuation := fun h => hp ((ispunct_iff_mem c).mpr h)
      have hp' : ispunct c = false := by simpa using hp
      simp only [cleanToken, toLower, specNormalize, List.filter_cons, hp', Bool.not_false,
        if_true, List.map_cons, hm, if_false, ih]
      congr 1
      unfold tolower isAsciiUpper
      by_cases hu : 65 ≤ c ∧ c ≤ 90
      · simp only [hu, and_self, if_true, decide_True, Bool.and_self]
        omega
      · have : (decide (65 ≤ c) && decide (c ≤ 90)) = false := by
          simp only [Bool.and_eq_false_iff, decide_eq_false_iff_not]
          omega
        simp only [hu, if_false, this, Bool.false_eq_true]

theorem mem_cleanToken (s : Str) (c : Nat) (h : c ∈ cleanToken s) :
    ∃ c0 ∈ s, ispunct c0 = false ∧ c = tolower c0 := by
  simp only [cleanToken, toLower, List.mem_map, List.mem_filter] at h
  obtain ⟨c0, ⟨hm, hp⟩, e⟩ := h
  exact ⟨c0, hm, by simpa using hp, e.symm⟩

theorem isAsciiUpper_tolower (c : Nat) : isAsciiUpper (tolower c) = false := by
  unfold tolower isAsciiUpper
  simp only [Bool.and_eq_false_iff, decide_eq_false_iff_not]
  split_ifs <;> omega

theorem ispunct_of_mem_cleanToken (s : Str) (c : Nat) (h : c ∈ cleanToken s) :
    ispunct c = false := by
  obtain ⟨c0, _, hp, e⟩ := mem_cleanToken s c h
  rw [e, ispunct_tolower, hp]

/-- C12. Normalizer definition: `cleanToken s` is `s` with every ASCII punctuation
character deleted and every remaining ASCII uppercase letter replaced by its lowercase
letter, all other characters kept in order; the result has no punctuation character
and no uppercase letter, and `don't` becomes `dont`. -/
theorem C12_normalizer_definition :
    (∀ s : Str, cleanToken s = specNormalize s) ∧
    (∀ (s : Str) (c : Nat), c ∈ cleanToken s →
      c ∉ asciiPunctuation ∧ isAsciiUpper c = false) ∧
    cleanToken (lit "don't") = lit "dont" ∧
    cleanToken (lit "Hello, World!") = lit "hello world" := by
  refine ⟨cleanToken_eq_specNormalize, ?_, by decide, by decide⟩
  intro s c h
  constructor
  · intro hm
    have := ispunct_of_mem_cleanToken s c h
    rw [(ispunct_iff_mem c).mpr hm] at this
    exact Bool.noConfusion this
  · obtain ⟨c0, _, _, e⟩ := mem_cleanToken s c h
    rw [e]
    exact isAsciiUpper_tolower c0

/-! ### Totality of the decoder -/

/-- C14. Decode is total: for every content of the index file (any bytes, or no
readable file) `loadDecryptedIndex` returns an index, no exception escapes; the
position `colon_pos + 1` handed to `substr` never exceeds the length of the line, so
both `substr` calls return. -/
theorem C14_decode_total :
    (∀ file : Option Str, ∃ index, loadDecryptedIndex file = some index) ∧
    (∀ (index : Index) (line : Str), ∃ index', parseLine index line = some index') ∧
    (∀ (line : Str) (colon_pos : Nat), strFind line 58 = some colon_pos →
      colon_pos + 1 ≤ line.length ∧
      substr line 0 (some colon_pos) = some (line.take colon_pos) ∧
      substr line (colon_pos + 1) none = some (line.drop (colon_pos + 1))) ∧
    loadDecryptedIndex (some []) = some [] ∧
    loadDecryptedIndex (some (lit ":::\n\n,,,:\nK")) = some [] := by
  refine ⟨loadDecryptedIndex_total, parseLine_total, ?_, by decide, by decide⟩
  intro line colon_pos h
  have hlt := strFind_lt line 58 colon_pos h
  have h1 : ¬ line.length < 0 := by omega
  have h2 : ¬ line.length < colon_pos + 1 := by omega
  refine ⟨hlt, ?_, ?_⟩
  · simp [substr]
  · simp [substr, h2]

/-- C14, at the line `ab:c`, whose colon is at position 2. -/
theorem C14_decode_total_witness :
    strFind (lit "ab:c") 58 = some 2 ∧
    2 + 1 ≤ (lit "ab:c").length ∧
    substr (lit "ab:c") 0 (some 2) = some ((lit "ab:c").take 2) ∧
    substr (lit "ab:c") (2 + 1) none = some ((lit "ab:c").drop (2 + 1)) :=
  ⟨by decide, C14_decode_total.2.2.1 (lit "ab:c") 2 (by decide)⟩

/-! ### Unreadable index file -/

/-- C15. Unreadable index degrades to empty: when the index file cannot be opened,
`loadDecryptedIndex` prints the error and returns the empty index, `searchWord` takes
the NotFound branch with no suggestion for every query, and `main` returns normally. -/
theorem C15_unreadable_index_degrades :
    loadDecryptedIndex none = some [] ∧
    loadError none = lit "ERROR: Could not open index file\n" ∧
    (∀ query : Str, searchWord none query = some (Lookup.NotFound (cleanToken query) [])) ∧
    (∀ query : Str, render (Lookup.NotFound (cleanToken query) [])
      = lit "No results for '" ++ cleanToken query ++ lit "'\n") ∧
    (∀ (docs : List (Str × Str)) (word : Str),
      main ⟨docs, none⟩ [lit "cryptoseek", lit "search", word]
        = some ⟨0, lit "No results for '" ++ cleanToken word ++ lit "'\n",
            lit "ERROR: Could not open index file\n", none⟩) := by
  refine ⟨rfl, rfl, fun _ => rfl, ?_, ?_⟩
  · intro query
    simp [render]
  · intro docs word
    have h1 : ¬ lit "search" = lit "index" := by decide
    simp [main, h1, searchWord, loadDecryptedIndex, searchIndex, find, keys, render, loadError]

/-! ### Fields of a line -/

theorem fields_ne_nil (d : Nat) (s : Str) : fields d s ≠ [] := by
  cases s with
  | nil => simp [fields]
  | cons c cs =>
    unfold fields
    split_ifs
    · simp
    · split <;> simp

theorem fields_cons_ne (d c : Nat) (cs f : Str) (fs : List Str) (hc : ¬ c = d)
    (h : fields d cs = f :: fs) : fields d (c :: cs) = (c :: f) :: fs := by
  simp [fields, hc, h]

theorem fields_no_sep (d : Nat) (s : Str) (h : d ∉ s) : fields d s = [s] := by
  induction s with
  | nil => rfl
  | cons c cs ih =>
    have hc : ¬ c = d := fun e => h (by simp [e])
    have hcs : d ∉ cs := fun e => h (List.mem_cons_of_mem _ e)
    exact fields_cons_ne d c cs cs [] hc (ih hcs)

theorem fields_append_sep (d : Nat) (s rest : Str) (h : d ∉ s) :
    fields d (s ++ d :: rest) = s :: fields d rest := by
  induction s with
  | nil => simp [fields]
  | cons c cs ih =>
    have hc : ¬ c = d := fun e => h (by simp [e])
    have hcs : d ∉ cs := fun e => h (List.mem_cons_of_mem _ e)
    exact fields_cons_ne d c _ cs _ hc (ih hcs)

theorem fields_concat_sep (d : Nat) (s : Str) : fields d (s ++ [d]) = fields d s ++ [[]] := by
  induction s with
  | nil => simp [fields]
  | cons c cs ih =>
    by_cases hc : c = d
    · simp [fields, hc, ih]
    · obtain ⟨f, fs, hf⟩ : ∃ f fs, fields d cs = f :: fs := by
        cases hfs : fields d cs with
        | nil => exact absurd hfs (fields_ne_nil d cs)
        | cons f fs => exact ⟨f, fs, rfl⟩
      have h1 : fields d (cs ++ [d]) = f :: (fs ++ [[]]) := by rw [ih, hf]; rfl
      rw [List.cons_append, fields_cons_ne d c _ f _ hc h1, fields_cons_ne d c cs f fs hc hf]
      rfl

theorem sep_not_mem_fields (d : Nat) (s f : Str) (h : f ∈ fields d s) : d ∉ f := by
  induction s generalizing f with
  | nil =>
    simp only [fields, List.mem_singleton] at h
    subst h
    simp
  | cons c cs ih =>
    by_cases hc : c = d
    · simp only [fields, hc, if_true, List.mem_cons] at h
      rcases h with h | h
      · subst h; simp
      · exact ih f h
    · obtain ⟨g, gs, hg⟩ : ∃ g gs, fields d cs = g :: gs := by
        cases hfs : fields d cs with
        | nil => exact absurd hfs (fields_ne_nil d cs)
        | cons g gs => exact ⟨g, gs, rfl⟩
      rw [fields_cons_ne d c cs g gs hc hg, List.mem_cons] at h
      rcases h with h | h
      · subst h
        have hg' := ih g (by rw [hg]; exact List.mem_cons_self _ _)
        intro hm
        rcases List.mem_cons.mp hm with e | e
        · exact hc e.symm
        · exact hg' e
      · exact ih f (by rw [hg]; exact List.mem_cons_of_mem _ h)

theorem intercalate_fields (d : Nat) (s : Str) : [d].intercalate (fields d s) = s := by
  induction s with
  | nil => rfl
  | cons c cs ih =>
    obtain ⟨g, gs, hg⟩ : ∃ g gs, fields d cs = g :: gs := by
      cases hfs : fields d cs with
      | nil => exact absurd hfs (fields_ne_nil d cs)
      | cons g gs => exact ⟨g, gs, rfl⟩
    rw [hg] at ih
    by_cases hc : c = d
    · subst hc
      simp only [fields, if_true, hg]
      cases gs with
      | nil =>
        simp [List.intercalate, List.intersperse] at ih ⊢
        exact ih
      | cons g2 gs2 =>
        simp [List.intercalate, List.intersperse] at ih ⊢
        exact ih
    · rw [fields_cons_ne d c cs g gs hc hg]
      cases gs with
      | nil =>
        simp [List.intercalate, List.intersperse] at ih ⊢
        exact ih
      | cons g2 gs2 =>
        simp [List.intercalate, List.intersperse] at ih ⊢
        exact ih

theorem filter_extractLines (d : Nat) (s cur : Str) (h : d ∉ cur) :
    (extractLines d s cur).filter (fun f => f ≠ [])
      = (fields d (cur ++ s)).filter (fun f => f ≠ []) := by
  induction s generalizing cur with
  | nil =>
    rw [List.append_nil, fields_no_sep d cur h]
    by_cases hn : cur = []
    · simp [extractLines, hn]
    · simp [extractLines, hn]
  | cons c cs ih =>
    by_cases hc : c = d
    · subst hc
      have := ih [] (by simp)
      simp only [List.nil_append] at this
      simp only [extractLines, if_true, fields_append_sep c cur cs h, List.filter_cons, this]
    · have hcur : d ∉ cur ++ [c] := by
        intro hm
        rcases List.mem_append.mp hm with e | e
        · exact h e
        · simp only [List.mem_singleton] at e
          exact hc e.symm
      have := ih (cur ++ [c]) hcur
      simp only [List.append_assoc, List.singleton_append] at this
      simp only [extractLines, hc, if_false]
      exact this

theorem filter_getlines_stripped (post : Str) :
    (getlines 44
        (if post ≠ [] ∧ post.getLast? = some 44 then post.dropLast else post)).filter
        (fun file => file ≠ [])
      = lineFiles post := by
  unfold lineFiles getlines
  by_cases hcond : post ≠ [] ∧ post.getLast? = some 44
  · obtain ⟨body, hbody⟩ := List.getLast?_eq_some_iff.mp hcond.2
    rw [if_pos hcond, hbody, List.dropLast_concat, fields_concat_sep,
      filter_extractLines 44 body [] (by simp)]
    simp
  · rw [if_neg hcond, filter_extractLines 44 post [] (by simp)]
    simp

/-- What a line with a colon does to the index, in terms of its term and its files. -/
theorem parseLine_split (index : Index) (pre post : Str) (h : 58 ∉ pre) :
    parseLine index (pre ++ 58 :: post)
      = some (if lineTerm pre ≠ [] ∧ lineFiles post ≠ []
          then assign index (lineTerm pre) (lineFiles post) [] else index) := by
  have h1 : ¬ (pre ++ 58 :: post).length < pre.length + 1 := by simp
  have hdrop : List.drop (pre.length + 1) (pre ++ 58 :: post) = post := by
    have : pre ++ 58 :: post = (pre ++ [58]) ++ post := by simp
    rw [this]
    exact List.drop_left' (by simp)
  unfold parseLine
  rw [strFind_append pre post 58 h]
  simp only [substr, Nat.not_lt_zero, if_false, h1, Option.bind_eq_bind, Option.some_bind,
    List.drop_zero, List.take_left' rfl, hdrop]
  rw [filter_getlines_stripped post]
  unfold lineTerm
  split_ifs <;> rfl

/-- C16. Per-line decode: for a line whose first `:` follows the text `pre` and is
followed by the text `post`, the term is `pre` without its whitespace characters
(removed anywhere in it) and the identifier list is the sequence of non-empty fields of
`post` split on `,`, in order; the line assigns that list to that term when both are
non-empty and otherwise leaves the index alone. Later `:` stay inside identifiers, a
trailing comma and empty fields give no identifier. Splitting on `,` means: the fields
have no `,` and joined with `,` they give back the text. -/
theorem C16_per_line_decode :
    (∀ (index : Index) (pre post : Str), 58 ∉ pre →
      parseLine index (pre ++ 58 :: post)
        = some (if lineTerm pre ≠ [] ∧ lineFiles post ≠ []
            then assign index (lineTerm pre) (lineFiles post) [] else index)) ∧
    (∀ s : Str, [44].intercalate (fields 44 s) = s ∧ ∀ f ∈ fields 44 s, 44 ∉ f) ∧
    parseLine [] (lit " c a\tt :x.txt,,a:b,y z.txt,")
      = some [(lit "cat", [lit "x.txt", lit "a:b", lit "y z.txt"])] ∧
    parseLine [] (lit "cat:,x.txt,,") = some [(lit "cat", [lit "x.txt"])] :=
  ⟨parseLine_split, fun s => ⟨intercalate_fields 44 s, fun f hf => sep_not_mem_fields 44 s f hf⟩,
    by decide, by decide⟩

/-- C16, at the line `c at:a.txt,,b:c,`. -/
theorem C16_per_line_decode_witness :
    58 ∉ lit "c at" ∧
    parseLine [] (lit "c at" ++ 58 :: lit "a.txt,,b:c,")
      = some (if lineTerm (lit "c at") ≠ [] ∧ lineFiles (lit "a.txt,,b:c,") ≠ []
          then assign [] (lineTerm (lit "c at")) (lineFiles (lit "a.txt,,b:c,")) []
          else []) ∧
    lineTerm (lit "c at") = lit "cat" ∧
    lineFiles (lit "a.txt,,b:c,") = [lit "a.txt", lit "b:c"] :=
  ⟨by decide, C16_per_line_decode.1 [] (lit "c at") (lit "a.txt,,b:c,") (by decide),
    by decide, by decide⟩

/-! ### Records of a decoded text -/

theorem splitFirst_eq_none (c : Nat) (s : Str) (h : splitFirst c s = none) : c ∉ s := by
  induction s with
  | nil => simp
  | cons x xs ih =>
    by_cases hx : x = c
    · simp [splitFirst, hx] at h
    · simp only [splitFirst, hx, if_false, Option.map_eq_none'] at h
      intro hm
      rcases List.mem_cons.mp hm with e | e
      · exact hx e.symm
      · exact ih h e

theorem splitFirst_eq_some (c : Nat) (s pre post : Str) (h : splitFirst c s = some (pre, post)) :
    s = pre ++ c :: post ∧ c ∉ pre := by
  induction s generalizing pre with
  | nil => simp [splitFirst] at h
  | cons x xs ih =>
    by_cases hx : x = c
    · simp only [splitFirst, hx, if_true, Option.some.injEq, Prod.mk.injEq] at h
      obtain ⟨rfl, rfl⟩ := h
      simp [hx]
    · simp only [splitFirst, hx, if_false, Option.map_eq_some', Prod.mk.injEq] at h
      obtain ⟨⟨a, b⟩, hab, rfl, rfl⟩ := h
      obtain ⟨h1, h2⟩ := ih a hab
      refine ⟨by rw [h1]; rfl, ?_⟩
      intro hm
      rcases List.mem_cons.mp hm with e | e
      · exact hx e.symm
      · exact h2 e

/-- A line leaves the index alone unless it holds a valid record, which it assigns. -/
theorem parseLine_eq_record (index : Index) (line : Str) :
    parseLine index line
      = some (match lineRecord line with
          | none => index
          | some r => assign index r.1 r.2 []) := by
  unfold lineRecord
  cases hs : splitFirst 58 line with
  | none => exact parseLine_no_colon index line (splitFirst_eq_none 58 line hs)
  | some p =>
    obtain ⟨pre, post⟩ := p
    obtain ⟨hline, hpre⟩ := splitFirst_eq_some 58 line pre post hs
    rw [hline, parseLine_split index pre post hpre]
    by_cases hv : lineTerm pre ≠ [] ∧ lineFiles post ≠ []
    · simp only [if_pos hv]
    · simp only [if_neg hv]

theorem lineRecord_valid (line : Str) (r : Str × List Str) (h : lineRecord line = some r) :
    r.1 ≠ [] ∧ spaceFree r.1 ∧ r.2 ≠ [] ∧ ∀ f ∈ r.2, f ≠ [] ∧ 44 ∉ f := by
  unfold lineRecord at h
  cases hs : splitFirst 58 line with
  | none => simp [hs] at h
  | some p =>
    obtain ⟨pre, post⟩ := p
    simp only [hs] at h
    by_cases hv : lineTerm pre ≠ [] ∧ lineFiles post ≠ []
    · rw [if_pos hv] at h
      have e := Option.some.inj h
      subst e
      refine ⟨hv.1, ?_, hv.2, ?_⟩
      · intro c hc
        simp only [lineTerm, List.mem_filter] at hc
        simpa using hc.2
      · intro f hf
        simp only [lineFiles, List.mem_filter] at hf
        exact ⟨by simpa using hf.2, sep_not_mem_fields 44 post f hf.1⟩
    · rw [if_neg hv] at h
      exact Option.noConfusion h

theorem mem_assign {α : Type} (m : Table α) (k : Str) (v dflt : α) (p : Str × α)
    (h : p ∈ assign m k v dflt) : p ∈ m ∨ p = (k, v) := by
  unfold assign at h
  induction m with
  | nil =>
    simp only [atKey, List.mem_singleton] at h
    exact Or.inr h
  | cons q rest ih =>
    obtain ⟨k', v'⟩ := q
    by_cases hk : k' = k
    · simp only [atKey, hk, if_true, List.mem_cons] at h
      rcases h with h | h
      · exact Or.inr h
      · exact Or.inl (List.mem_cons_of_mem _ h)
    · simp only [atKey, hk, if_false, List.mem_cons] at h
      rcases h with h | h
      · exact Or.inl (by rw [h]; exact List.mem_cons_self _ _)
      · rcases ih h with h' | h'
        · exact Or.inl (List.mem_cons_of_mem _ h')
        · exact Or.inr h'

theorem foldlM_parseLine_entries (lines : List Str) (index index' : Index)
    (good : Str × List Str → Prop)
    (hgood : ∀ line r, lineRecord line = some r → good r)
    (h : lines.foldlM parseLine index = some index') (hi : ∀ p ∈ index, good p) :
    ∀ p ∈ index', good p := by
  induction lines generalizing index with
  | nil =>
    simp only [List.foldlM_nil] at h
    have e : index = index' := Option.some.inj h
    rw [← e]; exact hi
  | cons l ls ih =>
    rw [List.foldlM_cons, parseLine_eq_record] at h
    apply ih _ h
    cases hr : lineRecord l with
    | none => exact hi
    | some r =>
      intro p hp
      rcases mem_assign index r.1 r.2 [] p hp with h1 | h1
      · exact hi p h1
      · rw [h1]; exact hgood l r hr

/-- C13. Decode drops empty records: every entry of the index loaded from any file has
a non-empty term without whitespace characters and a non-empty list of identifiers that
are all non-empty and free of `,`; a line whose term is empty after the whitespace
stripping, or whose list of identifiers is empty after the cleanup, leaves the index
as it was. -/
theorem C13_decode_drops_empty_records :
    (∀ (file : Option Str) (index : Index), loadDecryptedIndex file = some index →
      ∀ p ∈ index, p.1 ≠ [] ∧ spaceFree p.1 ∧ p.2 ≠ [] ∧ ∀ f ∈ p.2, f ≠ [] ∧ 44 ∉ f) ∧
    (∀ (index : Index) (pre post : Str), 58 ∉ pre →
      lineTerm pre = [] ∨ lineFiles post = [] →
      parseLine index (pre ++ 58 :: post) = some index) ∧
    loadDecryptedIndex (some (xorEncryptDecrypt (lit ":a.txt,\n \t:b.txt,\ncat:,,\ndog:\n")))
      = some [] := by
  refine ⟨?_, ?_, by decide⟩
  · intro file index h
    cases file with
    | none =>
      have e : ([] : Index) = index := Option.some.inj h
      rw [← e]
      intro p hp
      simp at hp
    | some enc =>
      exact foldlM_parseLine_entries _ [] index _ lineRecord_valid h (fun p hp => by simp at hp)
  · intro index pre post hpre hempty
    rw [parseLine_split index pre post hpre]
    have hv : ¬ (lineTerm pre ≠ [] ∧ lineFiles post ≠ []) := by
      rintro ⟨h1, h2⟩
      rcases hempty with e | e
      · exact h1 e
      · exact h2 e
    rw [if_neg hv]

/-- C13, at the stored text `cat:a.txt,` then `:b.txt,`, and at the line ` :b.txt,`. -/
theorem C13_decode_drops_empty_records_witness :
    loadDecryptedIndex (some (xorEncryptDecrypt (lit "cat:a.txt,\n:b.txt,\n")))
      = some [(lit "cat", [lit "a.txt"])] ∧
    (∀ p ∈ [(lit "cat", [lit "a.txt"])],
      p.1 ≠ [] ∧ spaceFree p.1 ∧ p.2 ≠ [] ∧ ∀ f ∈ p.2, f ≠ [] ∧ 44 ∉ f) ∧
    58 ∉ lit " " ∧ (lineTerm (lit " ") = [] ∨ lineFiles (lit "b.txt,") = []) ∧
    parseLine [(lit "cat", [lit "a.txt"])] (lit " " ++ 58 :: lit "b.txt,")
      = some [(lit "cat", [lit "a.txt"])] :=
  ⟨by decide,
    C13_decode_drops_empty_records.1 (some (xorEncryptDecrypt (lit "cat:a.txt,\n:b.txt,\n")))
      [(lit "cat", [lit "a.txt"])] (by decide),
    by decide, Or.inl (by decide),
    C13_decode_drops_empty_records.2.1 [(lit "cat", [lit "a.txt"])] (lit " ") (lit "b.txt,")
      (by decide) (Or.inl (by decide))⟩

/-! ### Several records for one term -/

theorem getlines_joinLines (lines : List Str) (h : ∀ l ∈ lines, 10 ∉ l) :
    getlines 10 (joinLines lines) = lines := by
  have := getlines_terminated 10 lines [] h
  simpa [joinLines, getlines, extractLines] using this

theorem find_parseLine_other (index index' : Index) (line t : Str) (ids : List Str)
    (h : parseLine index line = some index')
    (hline : (lineRecord line).map Prod.fst ≠ some t) (hf : find index t = some ids) :
    find index' t = some ids := by
  rw [parseLine_eq_record] at h
  have e := Option.some.inj h
  rw [← e]
  cases hr : lineRecord line with
  | none => exact hf
  | some r =>
    have hne : ¬ t = r.1 := by
      intro e'
      apply hline
      rw [hr, e']
      rfl
    simp only [assign, find_atKey, hne, if_false]
    exact hf

theorem find_foldlM_parseLine_other (lines : List Str) (index index' : Index) (t : Str)
    (ids : List Str) (h : lines.foldlM parseLine index = some index')
    (hlines : ∀ l ∈ lines, (lineRecord l).map Prod.fst ≠ some t)
    (hf : find index t = some ids) : find index' t = some ids := by
  induction lines generalizing index with
  | nil =>
    simp only [List.foldlM_nil] at h
    have e : index = index' := Option.some.inj h
    rw [← e]; exact hf
  | cons l ls ih =>
    rw [List.foldlM_cons] at h
    obtain ⟨i1, h1⟩ := parseLine_total index l
    rw [h1] at h
    exact ih i1 h (fun l' hl' => hlines l' (List.mem_cons_of_mem _ hl'))
      (find_parseLine_other index i1 l t ids h1 (hlines l (List.mem_cons_self _ _)) hf)

theorem find_parseIndex_last_of_lines (content : Str) (before after : List Str) (r t : Str)
    (ids : List Str) (hlines : getlines 10 content = before ++ r :: after)
    (hr : lineRecord r = some (t, ids))
    (hafter : ∀ l ∈ after, (lineRecord l).map Prod.fst ≠ some t) :
    ∃ index, parseIndex content = some index ∧ find index t = some ids := by
  obtain ⟨index, hindex⟩ := parseIndex_total content
  refine ⟨index, hindex, ?_⟩
  unfold parseIndex at hindex
  rw [hlines, List.foldlM_append] at hindex
  obtain ⟨i1, h1⟩ := foldlM_parseLine_total before []
  rw [h1] at hindex
  simp only [Option.bind_eq_bind, Option.some_bind] at hindex
  rw [List.foldlM_cons, parseLine_eq_record, hr] at hindex
  simp only [Option.bind_eq_bind, Option.some_bind] at hindex
  apply find_foldlM_parseLine_other after _ index t ids hindex hafter
  simp [assign, find_atKey]

theorem find_parseIndex_last (before after : List Str) (r t : Str) (ids : List Str)
    (hnl : ∀ l ∈ before ++ r :: after, 10 ∉ l) (hr : lineRecord r = some (t, ids))
    (hafter : ∀ l ∈ after, (lineRecord l).map Prod.fst ≠ some t) :
    ∃ index, parseIndex (joinLines (before ++ r :: after)) = some index ∧
      find index t = some ids :=
  find_parseIndex_last_of_lines _ before after r t ids (getlines_joinLines _ hnl) hr hafter

/-- C19. Duplicate records overwrite: for every decoded plaintext, whether or not its
last line ends in a newline, the index loaded maps a term to the identifier list of the
last line that holds a valid record for this term, whatever the earlier lines hold:
earlier lists for the term are replaced, not merged. The list is the record's sequence
of non-empty fields as it stands, so an identifier repeated within the record stays
repeated. In particular this holds for a text of complete lines. -/
theorem C19_duplicate_records_overwrite :
    (∀ (content : Str) (before after : List Str) (r t : Str) (ids : List Str),
      getlines 10 content = before ++ r :: after → lineRecord r = some (t, ids) →
      (∀ l ∈ after, (lineRecord l).map Prod.fst ≠ some t) →
      ∃ index,
        loadDecryptedIndex (some (xorEncryptDecrypt content)) = some index ∧
        find index t = some ids) ∧
    (∀ (before after : List Str) (r t : Str) (ids : List Str),
      (∀ l ∈ before ++ r :: after, 10 ∉ l) → lineRecord r = some (t, ids) →
      (∀ l ∈ after, (lineRecord l).map Prod.fst ≠ some t) →
      ∃ index,
        loadDecryptedIndex (some (xorEncryptDecrypt (joinLines (before ++ r :: after))))
          = some index ∧
        find index t = some ids) ∧
    loadDecryptedIndex (some (xorEncryptDecrypt
        (lit "cat:a.txt,b.txt,\ndog:c.txt,\nc a t:z.txt,z.txt,\n")))
      = some [(lit "cat", [lit "z.txt", lit "z.txt"]), (lit "dog", [lit "c.txt"])] ∧
    loadDecryptedIndex (some (xorEncryptDecrypt (lit "cat:a.txt,\ncat:b.txt")))
      = some [(lit "cat", [lit "b.txt"])] ∧
    lineRecord (lit "cat:b.txt,a.txt,b.txt,")
      = some (lit "cat", [lit "b.txt", lit "a.txt", lit "b.txt"]) := by
  refine ⟨?_, ?_, by decide, by decide, by decide⟩
  · intro content before after r t ids hlines hr hafter
    simp only [loadDecryptedIndex, xorEncryptDecrypt_involutive]
    exact find_parseIndex_last_of_lines content before after r t ids hlines hr hafter
  · intro before after r t ids hnl hr hafter
    simp only [loadDecryptedIndex, xorEncryptDecrypt_involutive]
    exact find_parseIndex_last before after r t ids hnl hr hafter

/-- C19, at the text `cat:a.txt,` / `cat:b.txt,b.txt,` / `dog:c.txt` whose last line
has no newline, and at the complete lines `cat:a.txt,` / `cat:b.txt,b.txt,` /
`dog:c.txt,`. -/
theorem C19_duplicate_records_overwrite_witness :
    getlines 10 (lit "cat:a.txt,\ncat:b.txt,b.txt,\ndog:c.txt")
      = [lit "cat:a.txt,"] ++ lit "cat:b.txt,b.txt," :: [lit "dog:c.txt"] ∧
    lineRecord (lit "cat:b.txt,b.txt,") = some (lit "cat", [lit "b.txt", lit "b.txt"]) ∧
    (∀ l ∈ [lit "dog:c.txt"], (lineRecord l).map Prod.fst ≠ some (lit "cat")) ∧
    (∃ index,
      loadDecryptedIndex (some (xorEncryptDecrypt
          (lit "cat:a.txt,\ncat:b.txt,b.txt,\ndog:c.txt"))) = some index ∧
      find index (lit "cat") = some [lit "b.txt", lit "b.txt"]) ∧
    (∀ l ∈ [lit "cat:a.txt,"] ++ lit "cat:b.txt,b.txt," :: [lit "dog:c.txt,"], 10 ∉ l) ∧
    (∀ l ∈ [lit "dog:c.txt,"], (lineRecord l).map Prod.fst ≠ some (lit "cat")) ∧
    ∃ index,
      loadDecryptedIndex (some (xorEncryptDecrypt
          (joinLines ([lit "cat:a.txt,"] ++ lit "cat:b.txt,b.txt," :: [lit "dog:c.txt,"]))))
        = some index ∧
      find index (lit "cat") = some [lit "b.txt", lit "b.txt"] :=
  ⟨by decide, by decide, by decide,
    C19_duplicate_records_overwrite.1 (lit "cat:a.txt,\ncat:b.txt,b.txt,\ndog:c.txt")
      [lit "cat:a.txt,"] [lit "dog:c.txt"]
      (lit "cat:b.txt,b.txt,") (lit "cat") [lit "b.txt", lit "b.txt"]
      (by decide) (by decide) (by decide),
    by decide, by decide,
    C19_duplicate_records_overwrite.2.1 [lit "cat:a.txt,"] [lit "dog:c.txt,"]
      (lit "cat:b.txt,b.txt,") (lit "cat") [lit "b.txt", lit "b.txt"]
      (by decide) (by decide) (by decide)⟩

/-! ### Exact round trip -/

theorem find_perm {α : Type} (m m' : Table α) (hp : m'.Perm m) (hn : (keys m).Nodup)
    (t : Str) : find m' t = find m t := by
  have hn' : (keys m').Nodup := (hp.map Prod.fst).nodup_iff.mpr hn
  cases h : find m t with
  | none =>
    have := (find_eq_none_iff m t).mp h
    apply (find_eq_none_iff m' t).mpr
    intro hm
    exact this ((hp.map Prod.fst).mem_iff.mp hm)
  | some v =>
    have := (find_eq_some_iff m hn t v).mp h
    exact (find_eq_some_iff m' hn' t v).mpr (hp.mem_iff.mpr this)

/-- C17. Exact round trip under clean data: for an index with distinct terms whose
entries are clean (term non-empty, free of `:` and of whitespace; posting list
non-empty, identifiers non-empty and free of `,` and `\n`), decoding what
`saveEncryptedIndex` writes returns the original index: the same entries, and under
every term the very same sequence of identifiers - in whichever order the map
enumerates its entries while encoding. -/
theorem C17_exact_round_trip (i order : Index) (hp : order.Perm i) (hn : (keys i).Nodup)
    (h : ∀ p ∈ i, cleanEntry p) :
    ∃ j, loadDecryptedIndex (some (saveEncryptedIndex order)) = some j ∧
      j.Perm i ∧ (keys j).Nodup ∧ ∀ t, find j t = find i t := by
  have hn' : (keys order).Nodup := (hp.map Prod.fst).nodup_iff.mpr hn
  have h' : ∀ p ∈ order, cleanEntry p := fun p hm => h p (hp.mem_iff.mp hm)
  exact ⟨order, load_save_eq order hn' h', hp, hn', find_perm i order hp hn⟩

/-- C17, at the index `the ↦ a.txt; cat ↦ b.txt, a.txt`, encoded with `cat` first. -/
theorem C17_exact_round_trip_witness :
    ([(lit "cat", [lit "b.txt", lit "a.txt"]), (lit "the", [lit "a.txt"])] : Index).Perm
      [(lit "the", [lit "a.txt"]), (lit "cat", [lit "b.txt", lit "a.txt"])] ∧
    (keys [(lit "the", [lit "a.txt"]), (lit "cat", [lit "b.txt", lit "a.txt"])]).Nodup ∧
    (∀ p ∈ [(lit "the", [lit "a.txt"]), (lit "cat", [lit "b.txt", lit "a.txt"])],
      cleanEntry p) ∧
    ∃ j, loadDecryptedIndex (some (saveEncryptedIndex
        [(lit "cat", [lit "b.txt", lit "a.txt"]), (lit "the", [lit "a.txt"])])) = some j ∧
      j.Perm [(lit "the", [lit "a.txt"]), (lit "cat", [lit "b.txt", lit "a.txt"])] ∧
      (keys j).Nodup ∧
      ∀ t, find j t
        = find [(lit "the", [lit "a.txt"]), (lit "cat", [lit "b.txt", lit "a.txt"])] t :=
  ⟨List.Perm.swap _ _ _, by decide, by decide,
    C17_exact_round_trip _ _ (List.Perm.swap _ _ _) (by decide) (by decide)⟩

/-! ### The order of posting lists -/

theorem strLt_irrefl (a : Str) : strLt a a = false := by
  induction a with
  | nil => rfl
  | cons x xs ih => simp [strLt, ih]

theorem strLt_cons (a b : Nat) (as bs : Str) :
    strLt (a :: as) (b :: bs) = true ↔ a < b ∨ (a = b ∧ strLt as bs = true) := by
  simp only [strLt]
  by_cases h1 : a < b
  · simp [h1]
  · by_cases h2 : b < a
    · have : ¬ a = b := by omega
      simp [h1, h2, this]
    · have : a = b := by omega
      simp [h1, this]

theorem strLt_trans (a b c : Str) (h1 : strLt a b = true) (h2 : strLt b c = true) :
    strLt a c = true := by
  induction a generalizing b c with
  | nil =>
    cases b with
    | nil => simp [strLt] at h1
    | cons y ys =>
      cases c with
      | nil => simp [strLt] at h2
      | cons z zs => rfl
  | cons x xs ih =>
    cases b with
    | nil => simp [strLt] at h1
    | cons y ys =>
      cases c with
      | nil => simp [strLt] at h2
      | cons z zs =>
        rw [strLt_cons] at h1 h2 ⊢
        rcases h1 with h1 | ⟨e1, h1⟩
        · rcases h2 with h2 | ⟨e2, _⟩
          · exact Or.inl (by omega)
          · exact Or.inl (by omega)
        · rcases h2 with h2 | ⟨e2, h2⟩
          · exact Or.inl (by omega)
          · exact Or.inr ⟨by omega, ih ys zs h1 h2⟩

theorem strLt_iff_lex (a b : Str) : strLt a b = true ↔ List.Lex (· < ·) a b := by
  induction a generalizing b with
  | nil =>
    cases b with
    | nil => simp [strLt, List.Lex.not_nil_right]
    | cons y ys => simp [strLt, List.Lex.nil]
  | cons x xs ih =>
    cases b with
    | nil => simp [strLt, List.Lex.not_nil_right]
    | cons y ys =>
      rw [strLt_cons]
      constructor
      · rintro (h | ⟨e, h⟩)
        · exact List.Lex.rel h
        · subst e
          exact List.Lex.cons ((ih ys).mp h)
      · intro h
        cases h with
        | cons h' => exact Or.inr ⟨rfl, (ih ys).mpr h'⟩
        | rel h' => exact Or.inl h'

theorem setInsert_ne_nil (x : Str) (s : List Str) : setInsert x s ≠ [] := by
  cases s with
  | nil => simp [setInsert]
  | cons y ys =>
    unfold setInsert
    split_ifs <;> simp

theorem pairwise_setInsert (x : Str) (s : List Str)
    (h : s.Pairwise (fun a b => strLt a b = true)) :
    (setInsert x s).Pairwise (fun a b => strLt a b = true) := by
  induction s with
  | nil => simp [setInsert]
  | cons y ys ih =>
    obtain ⟨hy, hys⟩ := List.pairwise_cons.mp h
    unfold setInsert
    by_cases h1 : strLt x y = true
    · rw [if_pos h1]
      refine List.pairwise_cons.mpr ⟨?_, h⟩
      intro z hz
      rcases List.mem_cons.mp hz with e | e
      · rw [e]; exact h1
      · exact strLt_trans x y z h1 (hy z e)
    · by_cases h2 : strLt y x = true
      · rw [if_neg h1, if_pos h2]
        refine List.pairwise_cons.mpr ⟨?_, ih hys⟩
        intro z hz
        rcases (mem_setInsert x z ys).mp hz with e | e
        · rw [e]; exact h2
        · exact hy z e
      · rw [if_neg h1, if_neg h2]
        exact h

theorem nodup_of_pairwise_strLt (s : List Str)
    (h : s.Pairwise (fun a b => strLt a b = true)) : s.Nodup := by
  apply List.Pairwise.imp _ h
  intro a b hab e
  rw [e, strLt_irrefl] at hab
  exact Bool.noConfusion hab

theorem ascending_of_pairwise_strLt (s : List Str)
    (h : s.Pairwise (fun a b => strLt a b = true)) : ascending s :=
  List.Pairwise.imp (fun hab => (strLt_iff_lex _ _).mp hab) h

theorem eq_of_pairwise_strLt (s s' : List Str)
    (h : s.Pairwise (fun a b => strLt a b = true))
    (h' : s'.Pairwise (fun a b => strLt a b = true)) (hm : ∀ d, d ∈ s ↔ d ∈ s') : s = s' := by
  haveI : IsAntisymm Str (fun a b => strLt a b = true) :=
    ⟨fun a b h1 h2 => by
      have := strLt_trans a b a h1 h2
      rw [strLt_irrefl] at this
      exact Bool.noConfusion this⟩
  have hp : s.Perm s' :=
    (List.perm_ext_iff_of_nodup (nodup_of_pairwise_strLt s h)
      (nodup_of_pairwise_strLt s' h')).mpr hm
  exact List.eq_of_perm_of_sorted hp h h'

theorem mem_atKey {α : Type} (k : Str) (dflt : α) (f : α → α) (m : Table α) (p : Str × α)
    (h : p ∈ atKey k dflt f m) :
    p ∈ m ∨ (p.1 = k ∧ ∃ v, (v = dflt ∨ (k, v) ∈ m) ∧ p.2 = f v) := by
  induction m with
  | nil =>
    simp only [atKey, List.mem_singleton] at h
    subst h
    exact Or.inr ⟨rfl, dflt, Or.inl rfl, rfl⟩
  | cons q rest ih =>
    obtain ⟨k', v'⟩ := q
    by_cases hk : k' = k
    · simp only [atKey, hk, if_true, List.mem_cons] at h
      rcases h with h | h
      · subst h
        exact Or.inr ⟨rfl, v', Or.inr (by rw [hk]; exact List.mem_cons_self _ _), rfl⟩
      · exact Or.inl (List.mem_cons_of_mem _ h)
    · simp only [atKey, hk, if_false, List.mem_cons] at h
      rcases h with h | h
      · exact Or.inl (by rw [h]; exact List.mem_cons_self _ _)
      · rcases ih h with h' | ⟨h1, v, hv, h2⟩
        · exact Or.inl (List.mem_cons_of_mem _ h')
        · refine Or.inr ⟨h1, v, ?_, h2⟩
          rcases hv with e | e
          · exact Or.inl e
          · exact Or.inr (List.mem_cons_of_mem _ e)

theorem goodSets_addWord (name word : Str) (m : Index) (h : goodSets m) :
    goodSets (addWord name m word) := by
  simp only [addWord]
  split
  · intro p hp
    rcases mem_atKey _ _ _ m p hp with h1 | ⟨_, v, hv, h2⟩
    · exact h p h1
    · rw [h2]
      refine ⟨setInsert_ne_nil name v, pairwise_setInsert name v ?_⟩
      rcases hv with e | e
      · rw [e]; exact List.Pairwise.nil
      · exact (h _ e).2
  · exact h

theorem goodSets_foldl_addWord (name : Str) (ws : List Str) (m : Index) (h : goodSets m) :
    goodSets (ws.foldl (addWord name) m) := by
  induction ws generalizing m with
  | nil => exact h
  | cons w ws ih => exact ih _ (goodSets_addWord name w m h)

theorem goodSets_addEntry (e : Str × Str) (m : Index) (h : goodSets m) :
    goodSets (addEntry m e) := by
  unfold addEntry
  split
  · exact goodSets_foldl_addWord _ _ _ h
  · exact h

theorem goodSets_foldl_addEntry (entries : List (Str × Str)) (m : Index) (h : goodSets m) :
    goodSets (entries.foldl addEntry m) := by
  induction entries generalizing m with
  | nil => exact h
  | cons e es ih => exact ih _ (goodSets_addEntry e m h)

theorem goodSets_buildIndex (entries : List (Str × Str)) : goodSets (buildIndex entries) := by
  rw [buildIndex_eq]
  exact goodSets_foldl_addEntry entries [] (fun p hp => by simp at hp)

theorem nodup_keys_buildIndex (entries : List (Str × Str)) :
    (keys (buildIndex entries)).Nodup := by
  rw [buildIndex_eq]
  exact nodup_keys_foldl_addEntry entries [] List.nodup_nil


theorem isspace_tolower (c : Nat) : isspace (tolower c) = isspace c := by
  unfold tolower
  split
  · next h =>
    have h1 : isspace c = false := by
      simp only [isspace, Bool.or_eq_false_iff, Bool.and_eq_false_iff, beq_eq_false_iff_ne,
        decide_eq_false_iff_not]
      omega
    have h2 : isspace (c + 32) = false := by
      simp only [isspace, Bool.or_eq_false_iff, Bool.and_eq_false_iff, beq_eq_false_iff_ne,
        decide_eq_false_iff_not]
      omega
    rw [h1, h2]
  · rfl

theorem spaceFree_cleanToken (tok : Str) (h : spaceFree tok) : spaceFree (cleanToken tok) := by
  intro c hc
  obtain ⟨c0, hm, _, e⟩ := mem_cleanToken tok c hc
  rw [e, isspace_tolower]
  exact h c0 hm

theorem posted_of_mem (m : Index) (hn : (keys m).Nodup) (t d : Str) (files : List Str)
    (hm : (t, files) ∈ m) (hd : d ∈ files) : posted m t d :=
  ⟨files, (find_eq_some_iff m hn t files).mpr hm, hd⟩

/-- C11. Index invariant after build: in the index returned by `buildIndex`, for every
directory listing, the terms are pairwise distinct and every term is a non-empty
normalized term - a fixed point of `cleanToken` without `:`, `,`, newline or any other
whitespace character -, every posting list is non-empty and no posting list holds an
identifier twice. -/
theorem C11_index_invariant (entries : List (Str × Str)) :
    (keys (buildIndex entries)).Nodup ∧
    ∀ p ∈ buildIndex entries,
      p.1 ≠ [] ∧ cleanToken p.1 = p.1 ∧ 58 ∉ p.1 ∧ 44 ∉ p.1 ∧ 10 ∉ p.1 ∧ spaceFree p.1 ∧
      p.2 ≠ [] ∧ p.2.Nodup := by
  have hn := nodup_keys_buildIndex entries
  refine ⟨hn, ?_⟩
  rintro ⟨t, files⟩ hp
  obtain ⟨hne, hsorted⟩ := goodSets_buildIndex entries (t, files) hp
  obtain ⟨d, hd⟩ := List.exists_mem_of_ne_nil files hne
  have hposted := posted_of_mem _ hn t d files hp hd
  obtain ⟨ht, text, tok, _, htok, hclean⟩ := (posted_buildIndex entries t d).mp hposted
  have hfree : spaceFree t := by
    rw [← hclean]
    exact spaceFree_cleanToken tok htok.2.1
  have hpunct : ∀ c, ispunct c = true → c ∉ t := by
    intro c hc hm
    rw [← hclean] at hm
    rw [ispunct_of_mem_cleanToken tok c hm] at hc
    exact Bool.noConfusion hc
  refine ⟨ht, ?_, hpunct 58 (by decide), hpunct 44 (by decide),
    not_newline_of_not_space t hfree, hfree, hne, nodup_of_pairwise_strLt files hsorted⟩
  show cleanToken t = t
  rw [← hclean]
  exact cleanToken_idempotent tok

theorem mem_corpus_perm (entries entries' : List (Str × Str)) (hp : entries'.Perm entries)
    (e : Str × Str) : e ∈ corpus entries' ↔ e ∈ corpus entries :=
  (hp.filter _).mem_iff

theorem find_eq_of_posted (a b : Index) (t : Str) (hna : (keys a).Nodup)
    (hnb : (keys b).Nodup) (hga : goodSets a) (hgb : goodSets b)
    (h : ∀ d, posted a t d ↔ posted b t d) : find a t = find b t := by
  cases hA : find a t with
  | none =>
    cases hB : find b t with
    | none => rfl
    | some fb =>
      exfalso
      have hmem := (find_eq_some_iff b hnb t fb).mp hB
      obtain ⟨d, hd⟩ := List.exists_mem_of_ne_nil fb (hgb _ hmem).1
      obtain ⟨fa, hfa, _⟩ := (h d).mpr ⟨fb, hB, hd⟩
      rw [hA] at hfa
      exact Option.noConfusion hfa
  | some fa =>
    have hma := (find_eq_some_iff a hna t fa).mp hA
    cases hB : find b t with
    | none =>
      exfalso
      obtain ⟨d, hd⟩ := List.exists_mem_of_ne_nil fa (hga _ hma).1
      obtain ⟨fb, hfb, _⟩ := (h d).mp ⟨fa, hA, hd⟩
      rw [hB] at hfb
      exact Option.noConfusion hfb
    | some fb =>
      have hmb := (find_eq_some_iff b hnb t fb).mp hB
      congr 1
      apply eq_of_pairwise_strLt fa fb (hga _ hma).2 (hgb _ hmb).2
      intro d
      constructor
      · intro hd
        obtain ⟨fb', hfb', hd'⟩ := (h d).mp ⟨fa, hA, hd⟩
        rw [hB] at hfb'
        rw [Option.some.inj hfb']
        exact hd'
      · intro hd
        obtain ⟨fa', hfa', hd'⟩ := (h d).mpr ⟨fb, hB, hd⟩
        rw [hA] at hfa'
        rw [Option.some.inj hfa']
        exact hd'

/-- C18. Sorted posting lists: every posting list of the index returned by `buildIndex`
is strictly ascending in the byte-wise lexicographic order of the identifiers, and the
posting list of each term is the same sequence in whichever order the directory
entries were enumerated. -/
theorem C18_sorted_posting_lists :
    (∀ (entries : List (Str × Str)) (t : Str) (files : List Str),
      find (buildIndex entries) t = some files → ascending files) ∧
    (∀ (entries entries' : List (Str × Str)), entries'.Perm entries →
      ∀ t, find (buildIndex entries') t = find (buildIndex entries) t) ∧
    buildIndex [(lit "b.txt", lit "cat"), (lit "ab.txt", lit "Cat cat"), (lit "B.txt", lit "cat."),
        (lit "a.txt", lit "cat")]
      = [(lit "cat", [lit "B.txt", lit "a.txt", lit "ab.txt", lit "b.txt"])] := by
  refine ⟨?_, ?_, by decide⟩
  · intro entries t files h
    have hm := (find_eq_some_iff _ (nodup_keys_buildIndex entries) t files).mp h
    exact ascending_of_pairwise_strLt files (goodSets_buildIndex entries _ hm).2
  · intro entries entries' hp t
    apply find_eq_of_posted _ _ t (nodup_keys_buildIndex entries')
      (nodup_keys_buildIndex entries) (goodSets_buildIndex entries')
      (goodSets_buildIndex entries)
    intro d
    rw [posted_buildIndex, posted_buildIndex]
    constructor
    · rintro ⟨h1, text, tok, hm, h2⟩
      exact ⟨h1, text, tok, (mem_corpus_perm entries entries' hp _).mp hm, h2⟩
    · rintro ⟨h1, text, tok, hm, h2⟩
      exact ⟨h1, text, tok, (mem_corpus_perm entries entries' hp _).mpr hm, h2⟩

/-- C18, at the directory `b.txt`, `a.txt` (both with the text `cat`), in both orders. -/
theorem C18_sorted_posting_lists_witness :
    find (buildIndex [(lit "b.txt", lit "cat"), (lit "a.txt", lit "cat")]) (lit "cat")
      = some [lit "a.txt", lit "b.txt"] ∧
    ascending [lit "a.txt", lit "b.txt"] ∧
    [(lit "a.txt", lit "cat"), (lit "b.txt", lit "cat")].Perm
      [(lit "b.txt", lit "cat"), (lit "a.txt", lit "cat")] ∧
    ∀ t, find (buildIndex [(lit "a.txt", lit "cat"), (lit "b.txt", lit "cat")]) t
      = find (buildIndex [(lit "b.txt", lit "cat"), (lit "a.txt", lit "cat")]) t :=
  ⟨by decide,
    C18_sorted_posting_lists.1 [(lit "b.txt", lit "cat"), (lit "a.txt", lit "cat")] (lit "cat")
      [lit "a.txt", lit "b.txt"] (by decide),
    List.Perm.swap _ _ _,
    C18_sorted_posting_lists.2.1 _ _ (List.Perm.swap _ _ _)⟩


/-- C11, at the directory `a.txt` = "The cat, the CAT", `b.txt` = "cat! dog.", for
its entry `cat ↦ a.txt, b.txt`. -/
theorem C11_index_invariant_witness :
    (lit "cat", [lit "a.txt", lit "b.txt"]) ∈
      buildIndex [(lit "a.txt", lit "The cat, the CAT"), (lit "b.txt", lit "cat! dog.")] ∧
    (lit "cat" ≠ [] ∧ cleanToken (lit "cat") = lit "cat" ∧ 58 ∉ lit "cat" ∧ 44 ∉ lit "cat" ∧
      10 ∉ lit "cat" ∧ spaceFree (lit "cat") ∧
      [lit "a.txt", lit "b.txt"] ≠ [] ∧ [lit "a.txt", lit "b.txt"].Nodup) :=
  ⟨by decide,
    (C11_index_invariant
      [(lit "a.txt", lit "The cat, the CAT"), (lit "b.txt", lit "cat! dog.")]).2
      (lit "cat", [lit "a.txt", lit "b.txt"]) (by decide)⟩

/-- C12, at the string `Don't!` and the character `t` of its normal form. -/
theorem C12_normalizer_definition_witness :
    116 ∈ cleanToken (lit "Don't!") ∧
    (116 ∉ asciiPunctuation ∧ isAsciiUpper 116 = false) :=
  ⟨by decide, C12_normalizer_definition.2.1 (lit "Don't!") 116 (by decide)⟩

end Cryptoseek
